import Mathlib

/-!
Verification development for the php-retry action.

The definitions below are a shallow embedding of the TypeScript sources:
* src/builders/command.ts  — the CommandBuilder string transforms,
* src/parsers/junit.ts     — the JUnit report parser (over the parsed XML
  object shape produced by the external XML library),
* src/parsers/dependency.ts — the DependencyResolver (regex-based PHP
  source scanning, transitive-closure resolution, filter construction),
* src/index.ts             — the retry orchestrator loop, with the external
  effects (process execution, file system, container copy) abstracted as
  per-attempt oracles.

Machine strings are Lean String values; JS string routines used by the
source (includes, trim, split on whitespace, startsWith, join) are defined
below over the character lists so that every definition is executable.
-/

/-! ### JS string primitives used by the source -/

/-- Whitespace class for the JS regex escapes used by the source
(trim, split on one-or-more whitespace, the regex escapes for whitespace).
The ASCII whitespace characters; the commands and PHP sources handled by
the action contain no exotic Unicode whitespace. -/
def isWsChar (c : Char) : Bool :=
  c == ' ' || c == '\t' || c == '\n' || c == '\r' || c == '\x0b' || c == '\x0c'

/-- Does the pattern occur at the very start of the list? -/
def subAt : List Char → List Char → Bool
  | _, [] => true
  | [], _ :: _ => false
  | a :: s, b :: pat => a == b && subAt s pat

/-- Does the pattern occur anywhere in the list?  (JS String.includes.) -/
def hasSub : List Char → List Char → Bool
  | [], pat => pat.isEmpty
  | s@(_ :: rest), pat => subAt s pat || hasSub rest pat

/-- JS command.includes(pat). -/
def strIncludes (s pat : String) : Bool := hasSub s.data pat.data

/-- JS command.trim().split(one-or-more-whitespace): maximal runs of
non-whitespace characters, in order.  Every step of the split consumes at
least one character, so the character-count fuel of the wrapper below
bounds its steps and is never exhausted.  (For an all-whitespace input JS
returns a single empty token, which none of the keyword patterns below
match, indistinguishable from the empty token list produced here.) -/
def splitWsF : Nat → List Char → List String
  | 0, _ => []
  | _, [] => []
  | fuel + 1, c :: cs =>
    if isWsChar c then splitWsF fuel cs
    else
      String.mk (c :: cs.takeWhile (fun d => !isWsChar d)) ::
        splitWsF fuel (cs.dropWhile (fun d => !isWsChar d))

/-- The maximal runs of non-whitespace characters, in order. -/
def splitWs (l : List Char) : List String := splitWsF l.length l

/-- JS Array.join(" "). -/
def joinSpace : List String → String
  | [] => ""
  | [t] => t
  | t :: rest => t ++ " " ++ joinSpace rest

/-- JS token.startsWith("-"). -/
def tokStartsDash (t : String) : Bool :=
  match t.data with
  | [] => false
  | c :: _ => c == '-'

/-! ### CommandBuilder (src/builders/command.ts) -/

/-- The fixed container-local report path (private field containerJunitPath). -/
def containerJunitPath : String := "/tmp/phpunit-junit.xml"

/-- isDockerCommand: the three containerized invocation forms, found by
substring containment on the raw command. -/
def isDockerCommand (command : String) : Bool :=
  strIncludes command "docker exec" ||
    strIncludes command "docker compose exec" ||
    strIncludes command "docker-compose exec"

/-- addJUnitLogging: leave a command that already logs alone, otherwise
append one report-logging flag, pointing at the fixed container path for
containerized commands and at the caller's local path otherwise. -/
def addJUnitLogging (command localJunitPath : String) : String :=
  if strIncludes command "--log-junit" then command
  else
    let junitPath :=
      if isDockerCommand command then containerJunitPath else localJunitPath
    command ++ " --log-junit " ++ junitPath

/-- Character-level effect of the two sequential global replaces in
addFilter: backslashes quadrupled first, double quotes escaped second.
The first replace introduces no quotes and the second touches no
backslashes, so the composition is this single character map. -/
def escapeFilterChar (c : Char) : List Char :=
  if c == '\\' then ['\\', '\\', '\\', '\\']
  else if c == '"' then ['\\', '"']
  else [c]

/-- addFilter: append the filter flag with the escaped selector in quotes. -/
def addFilter (command filterPattern : String) : String :=
  let escaped :=
    String.mk (filterPattern.data.foldr (fun c acc => escapeFilterChar c ++ acc) [])
  command ++ " --filter \"" ++ escaped ++ "\""

/-- The flags whose following token is a value (user/workdir/env forms). -/
def flagsWithArgs : List String := ["-u", "--user", "-w", "--workdir", "-e", "--env"]

/-- The flag-skipping while loop shared by addEnvVar and
extractContainerName: number of tokens consumed from the token list
before the insertion point / container token.  A value-taking flag with a
detached value consumes two tokens (stepping past the end of the list
stops the loop, exactly as the index comparison does in the source). -/
def skipCount : List String → Nat
  | [] => 0
  | t :: rest =>
    if tokStartsDash t then
      if flagsWithArgs.contains t && !strIncludes t "=" then
        match rest with
        | [] => 2
        | _ :: rest2 => 2 + skipCount rest2
      else 1 + skipCount rest
    else 0

/-- addEnvVar: splice a -e NAME=value pair into a containerized command
immediately after the invocation keywords and the leading flags; leave
non-containerized commands (and commands whose tokens do not begin with
one of the three keyword forms) unchanged. -/
def addEnvVar (command name value : String) : String :=
  if !isDockerCommand command then command
  else
    match splitWs command.data with
    | "docker" :: "exec" :: rest =>
      joinSpace (["docker", "exec"] ++ rest.take (skipCount rest) ++
        ["-e", name ++ "=" ++ value] ++ rest.drop (skipCount rest))
    | "docker" :: "compose" :: "exec" :: rest =>
      joinSpace (["docker", "compose", "exec"] ++ rest.take (skipCount rest) ++
        ["-e", name ++ "=" ++ value] ++ rest.drop (skipCount rest))
    | "docker-compose" :: "exec" :: rest =>
      joinSpace (["docker-compose", "exec"] ++ rest.take (skipCount rest) ++
        ["-e", name ++ "=" ++ value] ++ rest.drop (skipCount rest))
    | _ => command

/-- The container-token search loop of extractContainerName: skip flag
tokens (value-taking flags also consume their detached value) and return
the first non-flag token; running past the end gives null. -/
def findContainerTok : List String → Option String
  | [] => none
  | t :: rest =>
    if tokStartsDash t then
      if flagsWithArgs.contains t && !strIncludes t "=" then
        match rest with
        | [] => none
        | _ :: rest2 => findContainerTok rest2
      else findContainerTok rest
    else some t

/-- extractContainerName: tokenize, require the token list to begin with
one of the three invocation keyword forms, then return the first non-flag
token after the keywords. -/
def extractContainerName (command : String) : Option String :=
  match splitWs command.data with
  | "docker" :: "exec" :: rest => findContainerTok rest
  | "docker" :: "compose" :: "exec" :: rest => findContainerTok rest
  | "docker-compose" :: "exec" :: rest => findContainerTok rest
  | _ => none

/-! ### FailedTest records (src/types.ts) -/

/-- A failed-test record produced by the report parser.  The class
keyword being reserved, the class field is called clazz. -/
structure FailedTest where
  name : String
  clazz : String
  method : String
  file : String
  line : Option Int
deriving DecidableEq

/-! ### DependencyResolver (src/parsers/dependency.ts) -/

/-- The dependency map: fully-qualified test id to its direct
dependencies.  A JS Map in the source; embedded as the association list
of its entries in insertion order. -/
abbrev DepMap := List (String × List String)

/-- JS Map.get: the value at the first (unique) entry with this key. -/
def mapGet (m : DepMap) (k : String) : Option (List String) :=
  (m.find? (fun p => p.1 == k)).map (fun p => p.2)

/-- JS Map.has. -/
def hasKey (m : DepMap) (k : String) : Bool := m.any fun p => p.1 == k

/-- JS Map.set: overwrite in place when the key exists, append otherwise
(JS Maps keep the original insertion position on overwrite). -/
def mapSet (m : DepMap) (k : String) (v : List String) : DepMap :=
  if hasKey m k then m.map fun p => if p.1 == k then (p.1, v) else p
  else m ++ [(k, v)]

/-- JS Set.add on an insertion-ordered set of strings. -/
def setAdd (acc : List String) (d : String) : List String :=
  if acc.contains d then acc else acc ++ [d]

/-- subDeps.forEach(d tending to result.add(d)): add each element of sub
to acc in order. -/
def setUnion (acc sub : List String) : List String :=
  sub.foldl setAdd acc

/-- resolveDependencies: depth-first closure of a test id with a per-call
visited set (copied before each recursive call in the source, so each
child call receives the same extended set, exactly the immutable list
passed here).  A visited id is returned without re-expansion, which is
also what bounds the recursion: every recursive call removes the current
id from the set of not-yet-visited map keys. -/
def resolveDependencies (dm : DepMap) (methodName : String) (visited : List String) : List String :=
  if hv : visited.contains methodName then [methodName]
  else
    match hg : mapGet dm methodName with
    | none => [methodName]
    | some deps =>
      deps.foldl (fun acc dep => setUnion acc (resolveDependencies dm dep (methodName :: visited))) [methodName]
termination_by ((dm.map (fun p => p.1)).toFinset \ visited.toFinset).card
decreasing_by
  have hmem : methodName ∈ dm.map (fun p => p.1) := by
    unfold mapGet at hg
    cases hf : dm.find? (fun p => p.1 == methodName) with
    | none => rw [hf] at hg; simp at hg
    | some p =>
      have hpred := List.find?_some hf
      have hmm := List.mem_of_find?_eq_some hf
      have hp1 : p.1 = methodName := by simpa using hpred
      exact hp1 ▸ List.mem_map_of_mem _ hmm
  have hnv : methodName ∉ visited := by
    intro hvm
    exact hv (List.contains_iff_exists_mem_beq.mpr ⟨methodName, hvm, by simp⟩)
  apply Finset.card_lt_card
  rw [Finset.ssubset_def]
  constructor
  · apply Finset.sdiff_subset_sdiff (Finset.Subset.refl _)
    rw [List.toFinset_cons]
    exact Finset.subset_insert _ _
  · intro hsub
    have h1 : methodName ∈ (dm.map (fun p => p.1)).toFinset \ visited.toFinset := by
      rw [Finset.mem_sdiff]
      exact ⟨List.mem_toFinset.mpr hmem, fun hc => hnv (List.mem_toFinset.mp hc)⟩
    have h2 := hsub h1
    rw [Finset.mem_sdiff, List.toFinset_cons] at h2
    exact h2.2 (Finset.mem_insert_self _ _)

/-- JS Array.join("|") on the accumulated selector set. -/
def joinPipe : List String → String
  | [] => ""
  | [t] => t
  | t :: rest => t ++ "|" ++ joinPipe rest

/-- buildFilterPattern: union (insertion-ordered, deduplicated) of the
closures of all failed tests, joined with the pipe separator. -/
def buildFilterPattern (dm : DepMap) (failedTests : List FailedTest) : String :=
  joinPipe (failedTests.foldl (fun acc t => setUnion acc (resolveDependencies dm t.name [])) [])

/-! ### parseTestFile: regex scanning of PHP source (src/parsers/dependency.ts)

The four regexes of parseTestFile are embedded as explicit matchers
over the character list; scanning tries every start position from left to
right, exactly as the JS regex engine does for these patterns (none of
them can match the empty string except through their stated captures, and
none requires backtracking beyond what is written out below: the lazy
docblock body is found by extending it one character at a time until the
continuation matches, and the optional modifier alternation tries
abstract, then final, then the empty alternative). -/

/-- JS regex word character class (the sources are ASCII). -/
def isWordChar (c : Char) : Bool := c.isAlphanum || c == '_'

/-- Match a literal (first argument) at the start, returning the rest. -/
def matchLit : List Char → List Char → Option (List Char)
  | [], s => some s
  | _ :: _, [] => none
  | l :: lit, c :: s => if c == l then matchLit lit s else none

/-- One-or-more whitespace, greedy (the source patterns always follow it
with a non-whitespace character, so greedy matching never backtracks). -/
def takeWs1 : List Char → Option (List Char)
  | [] => none
  | c :: s => if isWsChar c then some (s.dropWhile isWsChar) else none

/-- One-or-more characters of a class, greedy, returning the capture and
the rest. -/
def takeChars1 (p : Char → Bool) : List Char → Option (List Char × List Char)
  | [] => none
  | c :: s => if p c then some (c :: s.takeWhile p, s.dropWhile p) else none

/-- Try a matcher at every start position, leftmost match first. -/
def scanFirst (f : List Char → Option α) : List Char → Option α
  | [] => f []
  | s@(_ :: rest) =>
    match f s with
    | some v => some v
    | none => scanFirst f rest

/-- The namespace pattern at one position: the namespace literal, then
whitespace, then the captured run of word or backslash characters. -/
def matchNamespaceAt (s : List Char) : Option String :=
  (matchLit "namespace".data s).bind fun r1 =>
  (takeWs1 r1).bind fun r2 =>
  (takeChars1 (fun c => isWordChar c || c == '\\') r2).map fun pr => String.mk pr.1

/-- The mandatory part of the class pattern: the class literal, then
whitespace, then the captured class name. -/
def matchClassCore (s : List Char) : Option String :=
  (matchLit "class".data s).bind fun r1 =>
  (takeWs1 r1).bind fun r2 =>
  (takeChars1 isWordChar r2).map fun pr => String.mk pr.1

/-- The class pattern at one position, with the optional
abstract-or-final modifier alternation tried in the source order. -/
def matchClassAt (s : List Char) : Option String :=
  match ((matchLit "abstract".data s).bind takeWs1).bind matchClassCore with
  | some c => some c
  | none =>
    match ((matchLit "final".data s).bind takeWs1).bind matchClassCore with
    | some c => some c
    | none => matchClassCore s

/-- The continuation after the lazy docblock body: the closing comment
literal, optional whitespace, then public function and the captured
test-prefixed method name. -/
def matchMethodTail (s : List Char) : Option (String × List Char) :=
  (matchLit "*/".data s).bind fun r1 =>
  (matchLit "public".data (r1.dropWhile isWsChar)).bind fun r3 =>
  (takeWs1 r3).bind fun r4 =>
  (matchLit "function".data r4).bind fun r5 =>
  (takeWs1 r5).bind fun r6 =>
  (matchLit "test".data r6).bind fun r7 =>
  (takeChars1 isWordChar r7).map fun pr =>
    (String.mk ('t' :: 'e' :: 's' :: 't' :: pr.1), pr.2)

/-- The lazy docblock body: the shortest body after which the
continuation matches.  Returns the body, the method name, and the rest
after the whole match. -/
def findBodyEnd : List Char → List Char → Option (List Char × String × List Char)
  | acc, s =>
    match matchMethodTail s with
    | some pr => some (acc.reverse, pr.1, pr.2)
    | none =>
      match s with
      | [] => none
      | c :: cs => findBodyEnd (c :: acc) cs

/-- The whole method pattern at one position: the docblock opener, then
the lazy body and its continuation.  Returns the docblock capture, the
method-name capture, and the rest of the input. -/
def matchMethodAt (s : List Char) : Option (String × String × List Char) :=
  (matchLit "/**".data s).bind fun r1 =>
  (findBodyEnd [] r1).map fun t => (String.mk t.1, t.2.1, t.2.2)

/-- The global exec loop over the method pattern: find a match, resume
after its end, collect (docblock, method name) pairs.  Every match
consumes at least the three opener characters, so the loop advances; the
character-count fuel bounds its iterations and is never exhausted. -/
def scanMethodsF : Nat → List Char → List (String × String)
  | 0, _ => []
  | _, [] => []
  | fuel + 1, s@(_ :: rest) =>
    match matchMethodAt s with
    | some t => (t.1, t.2.1) :: scanMethodsF fuel t.2.2
    | none => scanMethodsF fuel rest

/-- All (docblock, method name) matches of the method pattern. -/
def scanMethods (s : List Char) : List (String × String) := scanMethodsF s.length s

/-- The depends directive pattern at one position: the directive literal,
whitespace, a word capture, and an optional class-qualified tail. -/
def matchDependsAt (s : List Char) : Option (String × List Char) :=
  (matchLit "@depends".data s).bind fun r1 =>
  (takeWs1 r1).bind fun r2 =>
  (takeChars1 isWordChar r2).bind fun pr =>
  match matchLit "::".data pr.2 with
  | some r4 =>
    match takeChars1 isWordChar r4 with
    | some pr2 => some (String.mk (pr.1 ++ ':' :: ':' :: pr2.1), pr2.2)
    | none => some (String.mk pr.1, pr.2)
  | none => some (String.mk pr.1, pr.2)

/-- The global exec loop over the depends pattern (same fuel argument as
the method scan: every match consumes the directive literal). -/
def scanDependsF : Nat → List Char → List String
  | 0, _ => []
  | _, [] => []
  | fuel + 1, s@(_ :: rest) =>
    match matchDependsAt s with
    | some pr => pr.1 :: scanDependsF fuel pr.2
    | none => scanDependsF fuel rest

/-- All depends-directive captures inside a docblock. -/
def scanDepends (s : List Char) : List String := scanDependsF s.length s

/-- The per-method body of the parseTestFile loop: skip a falsy (empty)
docblock capture, qualify bare directive targets against the current
class, keep class-qualified targets as written, and produce an entry only
when at least one directive was found. -/
def entryOfMethod (fullClassName doc methodName : String) : Option (String × List String) :=
  if doc.isEmpty || methodName.isEmpty then none
  else
    let deps := (scanDepends doc.data).map fun dep =>
      if strIncludes dep "::" then dep else fullClassName ++ "::" ++ dep
    if deps.isEmpty then none
    else some (fullClassName ++ "::" ++ methodName, deps)

/-- The entries parseTestFile extracts from one source text: nothing
without a class match; otherwise the qualified entries of every matched
method, with the optional namespace (plus trailing backslash) put in
front of the class name. -/
def extractEntries (content : String) : List (String × List String) :=
  match scanFirst matchClassAt content.data with
  | none => []
  | some className =>
    let nsPart :=
      match scanFirst matchNamespaceAt content.data with
      | some ns => ns ++ "\\"
      | none => ""
    let fullClassName := nsPart ++ className
    (scanMethods content.data).filterMap fun pr => entryOfMethod fullClassName pr.1 pr.2

/-- parseTestFile: fold the extracted entries into the dependency map
with Map.set.  The source reads the file at the given path; the file
content is passed directly here. -/
def parseTestFile (m : DepMap) (content : String) : DepMap :=
  (extractEntries content).foldl (fun acc e => mapSet acc e.1 e.2) m

/-! ### JUnitParser (src/parsers/junit.ts)

The source hands the report text to the external XML library and then
walks the resulting object.  The embedding starts from that parsed
object shape: an element child that can be absent, a single object, or
an array (the library's representation of zero, one, or many same-named
children), and attribute values that can be absent. -/

/-- A child that the XML library parsed as one object or as an array. -/
inductive OneOrMany (α : Type) where
  | one : α → OneOrMany α
  | many : List α → OneOrMany α
deriving DecidableEq

/-- ensureArray: absent becomes empty, one object becomes a singleton,
an array stays itself. -/
def ensureArray : Option (OneOrMany α) → List α
  | none => []
  | some (.one a) => [a]
  | some (.many l) => l

/-- A testcase element: the class/name/file/line attributes and the
truthiness of the failure and error marker children (an absent marker is
falsy; a present marker with content is truthy). -/
structure XTestCase where
  clazz : Option String
  name : Option String
  file : Option String
  line : Option String
  failure : Bool
  err : Bool
deriving DecidableEq

/-- A testsuite element: its aggregate attributes, nested suites, and
testcases. -/
inductive XSuite : Type where
  | mk : Option String → Option String → Option String → Option String →
      Option (OneOrMany XSuite) → Option (OneOrMany XTestCase) → XSuite

/-- The tests attribute of a suite. -/
def XSuite.tests : XSuite → Option String
  | .mk t _ _ _ _ _ => t

/-- The failures attribute of a suite. -/
def XSuite.failures : XSuite → Option String
  | .mk _ f _ _ _ _ => f

/-- The errors attribute of a suite. -/
def XSuite.errors : XSuite → Option String
  | .mk _ _ e _ _ _ => e

/-- The assertions attribute of a suite. -/
def XSuite.assertions : XSuite → Option String
  | .mk _ _ _ a _ _ => a

/-- The nested testsuite children of a suite. -/
def XSuite.nested : XSuite → Option (OneOrMany XSuite)
  | .mk _ _ _ _ n _ => n

/-- The testcase children of a suite. -/
def XSuite.cases : XSuite → Option (OneOrMany XTestCase)
  | .mk _ _ _ _ _ c => c

/-- The testsuites container element: its aggregate attributes and its
testsuite children. -/
structure XContainer where
  tests : Option String
  failures : Option String
  errors : Option String
  assertions : Option String
  testsuite : Option (OneOrMany XSuite)

/-- The parsed report root: a testsuites container, or a bare testsuite
element (itself possibly an array under the library's representation). -/
structure JUnitXML where
  testsuites : Option XContainer
  testsuite : Option (OneOrMany XSuite)

/-- JS falsiness of an attribute value: absent or the empty string. -/
def jsFalsy : Option String → Bool
  | none => true
  | some s => s.isEmpty

/-- JS (value or-else default) for attribute strings: absent and empty
values fall back to the default. -/
def jsOrDefault (o : Option String) (d : String) : String :=
  match o with
  | none => d
  | some s => if s.isEmpty then d else s

/-- The digit accumulation of JS parseInt (radix 10). -/
def natOfDigits (l : List Char) : Nat :=
  l.foldl (fun a c => a * 10 + (c.toNat - 48)) 0

/-- JS parseInt(s, 10): skip leading whitespace, an optional sign, then
the maximal digit run; none (NaN) when no digit follows. -/
def parseIntJS (s : String) : Option Int :=
  let cs := s.data.dropWhile isWsChar
  let signed : Int × List Char :=
    match cs with
    | '-' :: r => (-1, r)
    | '+' :: r => (1, r)
    | r => (1, r)
  let digits := signed.2.takeWhile Char.isDigit
  if digits.isEmpty then none
  else some (signed.1 * (natOfDigits digits : Int))

/-- parseInt(attribute or-else zero): the numeric reading getTestStats
applies to every aggregate attribute. -/
def toNum (o : Option String) : Option Int := parseIntJS (jsOrDefault o "0")

/-- NaN-propagating addition of JS numbers restricted to the integer
results parseInt produces. -/
def nadd : Option Int → Option Int → Option Int
  | some a, some b => some (a + b)
  | _, _ => none

/-- The JS comparison (n greater than zero); false for NaN. -/
def ngt0 : Option Int → Bool
  | some v => v > 0
  | none => false

/-- The last namespace component used as the display class name:
fullName.split on backslash, last component, falling back to the full
name when the last component is falsy. -/
def splitOnBS : List Char → List (List Char)
  | [] => [[]]
  | c :: cs =>
    if c == '\\' then [] :: splitOnBS cs
    else
      match splitOnBS cs with
      | [] => [[c]]
      | g :: gs => (c :: g) :: gs

/-- The display class name of a failing testcase. -/
def lastComponent (full : String) : String :=
  let last := String.mk ((splitOnBS full.data).getLast?.getD [])
  if last.isEmpty then full else last

/-- The per-testcase body of extractFailuresFromSuite: failing testcases
with truthy class, name, and file attributes become records; the rest
contribute nothing. -/
def caseToFailedTest (tc : XTestCase) : Option FailedTest :=
  if tc.failure || tc.err then
    if jsFalsy tc.clazz || jsFalsy tc.name || jsFalsy tc.file then none
    else
      let fullName := tc.clazz.getD ""
      let methodName := tc.name.getD ""
      let file := tc.file.getD ""
      some
        { name := fullName ++ "::" ++ methodName
          clazz := lastComponent fullName
          method := methodName
          file := file
          line := parseIntJS (jsOrDefault tc.line "0") }
  else none

mutual

/-- extractFailuresFromSuite: the records of the nested suites first
(depth-first, in order), then this suite's own failing testcases. -/
def suiteFailures : XSuite → List FailedTest
  | .mk _ _ _ _ nested cases =>
    nestedFailures nested ++ (ensureArray cases).filterMap caseToFailedTest

/-- The recursion of extractFailuresFromSuite through ensureArray of the
nested children. -/
def nestedFailures : Option (OneOrMany XSuite) → List FailedTest
  | none => []
  | some (.one s) => suiteFailures s
  | some (.many l) => listFailures l

/-- The loop of extractFailuresFromSuite over a list of nested suites. -/
def listFailures : List XSuite → List FailedTest
  | [] => []
  | s :: rest => suiteFailures s ++ listFailures rest

end

/-- parseXMLFile after the XML library: the top-level suites are the
container's children for a testsuites root and the bare element
otherwise; their failures are collected in order. -/
def parseXMLTop (x : JUnitXML) : List FailedTest :=
  let tops : List XSuite :=
    match x.testsuites with
    | some c => ensureArray c.testsuite
    | none => ensureArray x.testsuite
  listFailures tops

/-- parseXMLFile including the file read: reading a missing file throws
in the source (readFileSync), embedded as the error value; a readable
report parses to its record list. -/
def parseXMLFileF (file : Option JUnitXML) : Except String (List FailedTest) :=
  match file with
  | none => Except.error "ENOENT: no such file or directory"
  | some x => Except.ok (parseXMLTop x)

/-- The aggregate statistics triple getTestStats returns; the failures
field already combines failures and errors. -/
structure TestStats where
  total : Option Int
  failures : Option Int
  assertions : Option Int
deriving DecidableEq

/-- getTestStats: prefer the attributes of a testsuites container when
its tests attribute parses positive; otherwise sum the attributes of the
container's immediate children (no deeper recursion); a bare testsuite
root contributes its own attributes; everything else keeps the zero
initialisation.  The returned failed count is failures plus errors in
every branch. -/
def getTestStats (x : JUnitXML) : TestStats :=
  match x.testsuites with
  | some c =>
    let rootTests := toNum c.tests
    if ngt0 rootTests then
      { total := rootTests
        failures := nadd (toNum c.failures) (toNum c.errors)
        assertions := toNum c.assertions }
    else
      let suites := ensureArray c.testsuite
      { total := suites.foldl (fun a s => nadd a (toNum s.tests)) (some 0)
        failures :=
          nadd (suites.foldl (fun a s => nadd a (toNum s.failures)) (some 0))
            (suites.foldl (fun a s => nadd a (toNum s.errors)) (some 0))
        assertions := suites.foldl (fun a s => nadd a (toNum s.assertions)) (some 0) }
  | none =>
    match x.testsuite with
    | some (.one s) =>
      { total := toNum s.tests
        failures := nadd (toNum s.failures) (toNum s.errors)
        assertions := toNum s.assertions }
    | some (.many _) =>
      { total := toNum none, failures := nadd (toNum none) (toNum none), assertions := toNum none }
    | none => { total := some 0, failures := nadd (some 0) (some 0), assertions := some 0 }

/-! ### Specification-side view of the report parser (for the refinement
comparison of the failing-record count) -/

/-- Spec-side: a failing testcase that can safely be re-targeted — it
carries a failure or error marker child and has nonempty class, name, and
file attributes. -/
def goodCase (tc : XTestCase) : Bool :=
  (tc.failure || tc.err) && !(jsFalsy tc.clazz || jsFalsy tc.name || jsFalsy tc.file)

mutual

/-- Spec-side: the number of failing re-targetable testcases of a suite,
over arbitrary nesting. -/
def countSuite : XSuite → Nat
  | .mk _ _ _ _ nested cases =>
    countNested nested + ((ensureArray cases).filter goodCase).length

/-- Spec-side: the count through the optional one-or-many nesting. -/
def countNested : Option (OneOrMany XSuite) → Nat
  | none => 0
  | some (.one s) => countSuite s
  | some (.many l) => countList l

/-- Spec-side: the count over a list of suites. -/
def countList : List XSuite → Nat
  | [] => 0
  | s :: rest => countSuite s + countList rest

end

/-- Spec-side: the failing re-targetable testcase count of a whole
report, under either root shape. -/
def countTop (x : JUnitXML) : Nat :=
  countList
    (match x.testsuites with
     | some c => ensureArray c.testsuite
     | none => ensureArray x.testsuite)

/-- Spec-side: what the claims require of every produced record —
nonempty method, file, and display class, and an id of the shape
class-attribute, separator, method, with the display class the last
namespace component of that class attribute. -/
def recOK (r : FailedTest) : Prop :=
  ¬ r.method.isEmpty = true ∧ ¬ r.file.isEmpty = true ∧ ¬ r.clazz.isEmpty = true ∧
    ∃ full : String, ¬ full.isEmpty = true ∧ r.name = full ++ "::" ++ r.method ∧
      r.clazz = lastComponent full

/-! ### Retry orchestrator (src/index.ts)

The while loop of run() with the external effects abstracted as
per-attempt oracles: the spawned test process either exits with a code,
is cut off by the configured timeout (the timer fires and the process
tree is killed before a natural exit), or fails to spawn; the report file
at the local report path after the attempt is either absent or a parsed
document; the workspace lookup resolves a reported test-file path to its
content or to not-found.  The container-copy step never alters control
flow in the source (both its failure callbacks resolve), so it has no
oracle.  The deletion of a stale report is likewise a file-system effect
already reflected in the per-attempt report oracle. -/

/-- The observable outcome of executing one test command. -/
inductive ExecOutcome where
  | exited : Nat → ExecOutcome
  | timedOut : ExecOutcome
  | spawnError : String → ExecOutcome
deriving DecidableEq

/-- The oracle for one attempt. -/
structure AttemptEnv where
  exec : ExecOutcome
  report : Option JUnitXML
  lookup : String → Option String

/-- The configuration consumed by the loop (shell selection and the wait
between attempts do not influence any control-flow decision modelled
here; junitPath is the default local report path handed to
addJUnitLogging). -/
structure RunInputs where
  command : String
  maxAttempts : Nat
  timeoutMinutes : Nat
  junitPath : String

/-- How a run ends: a zero exit, a nonzero exit surfaced after the loop,
or an exception reaching the outer catch (spawn failure or timeout). -/
inductive RunOutcome where
  | success : RunOutcome
  | failed : RunOutcome
  | aborted : String → RunOutcome
deriving DecidableEq

/-- The observable result of a run: the outcome, the last exit code, the
last failed-test list, the final attempt counter, and the trace of
commands actually executed (attempt number with the built command). -/
structure RunResult where
  outcome : RunOutcome
  exitCode : Nat
  failedTests : List FailedTest
  totalAttempts : Nat
  trace : List (Nat × String)

/-- First-occurrence deduplication (the JS Set of reported file paths). -/
def dedupFirstAux : List String → List String → List String
  | _, [] => []
  | seen, x :: xs =>
    if seen.contains x then dedupFirstAux seen xs
    else x :: dedupFirstAux (x :: seen) xs

/-- The distinct elements of a list in first-occurrence order. -/
def dedupFirst (l : List String) : List String := dedupFirstAux [] l

/-- The attempt-1 all-or-nothing gate: dependency filtering is enabled
only when the number of distinct reported files that were found equals
the number of distinct reported files. -/
def computeDependenciesParsed (tests : List FailedTest) (found : String → Bool) : Bool :=
  let uniqueFiles := dedupFirst (tests.map (fun t => t.file))
  let parsedFiles := uniqueFiles.filter found
  parsedFiles.length == uniqueFiles.length

/-- The attempt-1 ingestion loop: walk the failed tests, skip files
already parsed, parse each found file once (a not-found file is retried
on later tests with the same path and, the lookup being a function,
fails again, exactly as in the source). -/
def ingestLoop : DepMap → List String → List FailedTest → (String → Option String) → DepMap
  | dm, _, [], _ => dm
  | dm, parsed, t :: rest, lookup =>
    if parsed.contains t.file then ingestLoop dm parsed rest lookup
    else
      match lookup t.file with
      | some content => ingestLoop (parseTestFile dm content) (t.file :: parsed) rest lookup
      | none => ingestLoop dm parsed rest lookup

/-- Dependency ingestion over the failed tests of attempt 1. -/
def ingestFiles (dm : DepMap) (tests : List FailedTest) (lookup : String → Option String) : DepMap :=
  ingestLoop dm [] tests lookup

/-- The per-attempt command construction of the loop body: attempt 1 and
every attempt without complete dependency data get the plain command with
report logging; an attempt with complete dependency data gets the filter
first and report logging second; the attempt marker variable is injected
last. -/
def buildAttemptCommand (inputsCommand junitPath : String) (attempt : Nat)
    (dependenciesParsed : Bool) (dm : DepMap) (failedTests : List FailedTest) : String :=
  let command :=
    if attempt == 1 then addJUnitLogging inputsCommand junitPath
    else if !dependenciesParsed then addJUnitLogging inputsCommand junitPath
    else addJUnitLogging (addFilter inputsCommand (buildFilterPattern dm failedTests)) junitPath
  addEnvVar command "PHPUNIT_RETRY_ATTEMPT" (Nat.repr attempt)

/-- The message of the rejection raised when the timeout fired before the
process closed. -/
def timeoutMsg (timeoutMinutes : Nat) : String :=
  "Command timed out after " ++ Nat.repr timeoutMinutes ++ " minute(s)"

/-- The state of the loop when it exits normally (break or guard): the
final outputs are derived from the last exit code. -/
def mkLoopExit (attempt exitCode : Nat) (failedTests : List FailedTest) : RunResult :=
  { outcome := if exitCode == 0 then .success else .failed
    exitCode := exitCode
    failedTests := failedTests
    totalAttempts := attempt
    trace := [] }

/-- The while loop of run(), one constructor case per control path of the
body: guard, spawn error (rethrown to the outer catch), timeout
(rethrown), zero exit (break), missing report (break), empty failure list
(break), attempt-1 ingestion, exhaustion check (break), then the next
iteration.  The fuel is one more than the remaining attempts and is never
exhausted. -/
def runFrom (env : Nat → AttemptEnv) (cfg : RunInputs) :
    Nat → Nat → Nat → List FailedTest → Bool → DepMap → RunResult
  | 0, attempt, exitCode, failedTests, _, _ => mkLoopExit attempt exitCode failedTests
  | fuel + 1, attempt, exitCode, failedTests, depsParsed, dm =>
    if attempt > cfg.maxAttempts then mkLoopExit attempt exitCode failedTests
    else
      let command := buildAttemptCommand cfg.command cfg.junitPath attempt depsParsed dm failedTests
      match (env attempt).exec with
      | .spawnError msg =>
        { outcome := .aborted ("Failed to spawn command: " ++ msg)
          exitCode := exitCode, failedTests := failedTests
          totalAttempts := attempt, trace := [(attempt, command)] }
      | .timedOut =>
        { outcome := .aborted (timeoutMsg cfg.timeoutMinutes)
          exitCode := exitCode, failedTests := failedTests
          totalAttempts := attempt, trace := [(attempt, command)] }
      | .exited code =>
        if code == 0 then
          { mkLoopExit attempt 0 [] with trace := [(attempt, command)] }
        else
          match (env attempt).report with
          | none => { mkLoopExit attempt code failedTests with trace := [(attempt, command)] }
          | some xml =>
            let tests := parseXMLTop xml
            if tests.isEmpty then
              { mkLoopExit attempt code tests with trace := [(attempt, command)] }
            else
              let dm' := if attempt == 1 then ingestFiles dm tests (env attempt).lookup else dm
              let depsParsed' :=
                if attempt == 1 then
                  computeDependenciesParsed tests (fun f => ((env attempt).lookup f).isSome)
                else depsParsed
              if attempt ≥ cfg.maxAttempts then
                { mkLoopExit attempt code tests with trace := [(attempt, command)] }
              else
                let r := runFrom env cfg fuel (attempt + 1) code tests depsParsed' dm'
                { r with trace := (attempt, command) :: r.trace }

/-- run(): the loop from attempt 1 with exit code 0, no failed tests, no
dependency data, and an empty dependency map. -/
def run (env : Nat → AttemptEnv) (cfg : RunInputs) : RunResult :=
  runFrom env cfg (cfg.maxAttempts + 1) 1 0 [] false []



/-! ### Concrete sample data used by the witnesses -/

/-- A run configuration with three attempts and a one-minute timeout. -/
def sampleCfg : RunInputs :=
  { command := "vendor/bin/phpunit", maxAttempts := 3, timeoutMinutes := 1,
    junitPath := "/ws/phpunit-junit.xml" }

/-- An environment whose every attempt is cut off by the timeout. -/
def sampleEnvTimeout : Nat → AttemptEnv :=
  fun _ => { exec := ExecOutcome.timedOut, report := none, lookup := fun _ => none }

/-- An environment whose every attempt exits 2 and leaves no report file. -/
def sampleEnvNoReport : Nat → AttemptEnv :=
  fun _ => { exec := ExecOutcome.exited 2, report := none, lookup := fun _ => none }

/-- A failed-test record as the report parser would produce it. -/
def sampleTestA : FailedTest :=
  { name := "SampleTest::testCreate", clazz := "SampleTest",
    method := "testCreate", file := "tests/SampleTest.php", line := none }

/-- A failing testcase with complete attributes. -/
def sampleCase : XTestCase :=
  { clazz := some "Tests\\A", name := some "testX", file := some "/src/t.php",
    line := some "10", failure := true, err := false }

/-- A failing testcase with a missing class attribute (must be dropped). -/
def sampleBadCase : XTestCase :=
  { clazz := none, name := some "testY", file := some "/src/t.php",
    line := none, failure := true, err := false }

/-- A passing testcase (no marker child). -/
def samplePassCase : XTestCase :=
  { clazz := some "Tests\\A", name := some "testZ", file := some "/src/t.php",
    line := none, failure := false, err := false }

/-- An inner suite holding the three testcases above. -/
def sampleSuiteInner : XSuite :=
  XSuite.mk (some "3") (some "1") (some "0") none none
    (some (OneOrMany.many [sampleCase, sampleBadCase, samplePassCase]))

/-- An outer suite nesting the inner suite and holding one more failing
testcase of its own. -/
def sampleSuiteOuter : XSuite :=
  XSuite.mk none none none none (some (OneOrMany.one sampleSuiteInner))
    (some (OneOrMany.one sampleCase))

/-- A report with a testsuites container root and two levels of nesting:
exactly two failing re-targetable testcases. -/
def sampleReport : JUnitXML :=
  { testsuites :=
      some { tests := none, failures := none, errors := none, assertions := none,
             testsuite := some (OneOrMany.one sampleSuiteOuter) }
    testsuite := none }

/-- The record the parser produces for sampleCase. -/
def sampleRecord : FailedTest :=
  { name := "Tests\\A::testX", clazz := "A", method := "testX",
    file := "/src/t.php", line := some 10 }

/-- Scenario B: a bare testsuite root with five tests and two failures. -/
def bareReport : JUnitXML :=
  { testsuites := none
    testsuite := some (OneOrMany.one (XSuite.mk (some "5") (some "2") none none none none)) }

/-- A container root whose tests attribute is present and nonzero but
negative, with one child suite. -/
def negReport : JUnitXML :=
  { testsuites :=
      some { tests := some "-1", failures := some "7", errors := some "0",
             assertions := none,
             testsuite :=
               some (OneOrMany.one (XSuite.mk (some "4") (some "1") (some "0") (some "9")
                 none none)) }
    testsuite := none }

/-- A container root without usable attributes whose child suite has a
deeply nested grandchild: the grandchild's attributes must not be
counted. -/
def deepReport : JUnitXML :=
  { testsuites :=
      some { tests := none, failures := none, errors := none, assertions := none,
             testsuite :=
               some (OneOrMany.one (XSuite.mk (some "2") (some "1") (some "0") (some "4")
                 (some (OneOrMany.one (XSuite.mk (some "7") (some "7") (some "7") (some "7")
                   none none)))
                 none)) }
    testsuite := none }


/-- A container root whose tests attribute parses positive. -/
def posContainer : XContainer :=
  { tests := some "5", failures := some "1", errors := some "1",
    assertions := some "9", testsuite := none }

/-- A report rolled up entirely from the container's own attributes. -/
def posReport : JUnitXML := { testsuites := some posContainer, testsuite := none }

/-! ## Supporting lemmas -/

/-! ### Substring lemmas -/

theorem subAt_nil (s : List Char) : subAt s [] = true := by
  cases s <;> rfl

theorem subAt_nil_cons (b : Char) (pat : List Char) : subAt [] (b :: pat) = false := rfl

theorem subAt_cons_cons (a : Char) (s : List Char) (b : Char) (pat : List Char) :
    subAt (a :: s) (b :: pat) = ((a == b) && subAt s pat) := rfl

theorem hasSub_nil_eq (pat : List Char) : hasSub [] pat = pat.isEmpty := rfl

theorem hasSub_cons_eq (c : Char) (rest pat : List Char) :
    hasSub (c :: rest) pat = (subAt (c :: rest) pat || hasSub rest pat) := rfl

theorem subAt_append_of (pat : List Char) :
    ∀ {xs : List Char}, subAt xs pat = true → ∀ ys, subAt (xs ++ ys) pat = true := by
  induction pat with
  | nil => intro xs _ ys; exact subAt_nil _
  | cons q qs ih =>
    intro xs h ys
    cases xs with
    | nil => rw [subAt_nil_cons] at h; cases h
    | cons c rest =>
      rw [subAt_cons_cons, Bool.and_eq_true] at h
      rw [List.cons_append, subAt_cons_cons, Bool.and_eq_true]
      exact ⟨h.1, ih h.2 ys⟩

theorem subAt_self_append (pat rest : List Char) : subAt (pat ++ rest) pat = true := by
  induction pat with
  | nil => exact subAt_nil _
  | cons q qs ih => rw [List.cons_append, subAt_cons_cons, ih]; simp

theorem hasSub_of_subAt {s pat : List Char} (h : subAt s pat = true) : hasSub s pat = true := by
  cases s with
  | nil =>
    cases pat with
    | nil => rfl
    | cons q qs => rw [subAt_nil_cons] at h; cases h
  | cons c rest => rw [hasSub_cons_eq, h]; rfl

theorem hasSub_cons_of {rest pat : List Char} (c : Char) (h : hasSub rest pat = true) :
    hasSub (c :: rest) pat = true := by
  rw [hasSub_cons_eq, h]
  simp

theorem hasSub_append_right {ys pat : List Char} (h : hasSub ys pat = true) :
    ∀ xs, hasSub (xs ++ ys) pat = true := by
  intro xs
  induction xs with
  | nil => exact h
  | cons c rest ih => exact hasSub_cons_of c ih

theorem hasSub_append_left {xs pat : List Char} (h : hasSub xs pat = true) (ys : List Char) :
    hasSub (xs ++ ys) pat = true := by
  induction xs with
  | nil =>
    cases pat with
    | nil => exact hasSub_of_subAt (subAt_nil _)
    | cons q qs => rw [hasSub_nil_eq] at h; cases h
  | cons c rest ih =>
    rw [hasSub_cons_eq, Bool.or_eq_true] at h
    rcases h with h | h
    · exact hasSub_of_subAt (subAt_append_of _ h ys)
    · exact hasSub_cons_of c (ih h)

theorem hasSub_head_mem {s : List Char} {q : Char} {qs : List Char}
    (h : hasSub s (q :: qs) = true) : q ∈ s := by
  induction s with
  | nil => rw [hasSub_nil_eq] at h; cases h
  | cons c rest ih =>
    rw [hasSub_cons_eq, Bool.or_eq_true] at h
    rcases h with h | h
    · rw [subAt_cons_cons, Bool.and_eq_true] at h
      have hcq : c = q := eq_of_beq h.1
      simp [hcq]
    · exact List.mem_cons_of_mem _ (ih h)

theorem subAt_sep {pat : List Char} (hsp : ' ' ∉ pat) :
    ∀ (a b : List Char), subAt (a ++ ' ' :: b) pat = subAt a pat := by
  induction pat with
  | nil => intro a b; rw [subAt_nil, subAt_nil]
  | cons q qs ih =>
    intro a b
    cases a with
    | nil =>
      have hq : (' ' == q) = false := by
        rw [beq_eq_false_iff_ne]
        intro h
        subst h
        exact hsp (List.mem_cons_self _ _)
      rw [List.nil_append, subAt_cons_cons, hq, subAt_nil_cons]
      rfl
    | cons c a' =>
      have hsp' : ' ' ∉ qs := fun h => hsp (List.mem_cons_of_mem _ h)
      rw [List.cons_append, subAt_cons_cons, subAt_cons_cons, ih hsp']

theorem hasSub_sep {pat : List Char} (hne : pat ≠ []) (hsp : ' ' ∉ pat) :
    ∀ (a b : List Char), hasSub (a ++ ' ' :: b) pat = (hasSub a pat || hasSub b pat) := by
  intro a b
  induction a with
  | nil =>
    obtain ⟨q, qs, rfl⟩ : ∃ q qs, pat = q :: qs := by
      cases pat with
      | nil => exact absurd rfl hne
      | cons q qs => exact ⟨q, qs, rfl⟩
    have hq : (' ' == q) = false := by
      rw [beq_eq_false_iff_ne]
      intro h
      subst h
      exact hsp (List.mem_cons_self _ _)
    rw [List.nil_append, hasSub_cons_eq, subAt_cons_cons, hq, hasSub_nil_eq]
    simp

  | cons c a' ih =>
    have h1 : (c :: a') ++ ' ' :: b = c :: (a' ++ ' ' :: b) := rfl
    rw [h1, hasSub_cons_eq, ih]
    have h2 : subAt (c :: (a' ++ ' ' :: b)) pat = subAt (c :: a') pat := subAt_sep hsp (c :: a') b
    rw [h2, hasSub_cons_eq c a' pat, Bool.or_assoc]

theorem joinSpace_cons_cons (t t2 : String) (rest : List String) :
    joinSpace (t :: t2 :: rest) = t ++ " " ++ joinSpace (t2 :: rest) := rfl

theorem joinSpace_any {pat : List Char} (hne : pat ≠ []) (hsp : ' ' ∉ pat) :
    ∀ toks : List String,
      hasSub (joinSpace toks).data pat = toks.any (fun t => hasSub t.data pat) := by
  intro toks
  induction toks with
  | nil =>
    obtain ⟨q, qs, rfl⟩ : ∃ q qs, pat = q :: qs := by
      cases pat with
      | nil => exact absurd rfl hne
      | cons q qs => exact ⟨q, qs, rfl⟩
    rfl
  | cons t rest ih =>
    cases rest with
    | nil =>
      show hasSub t.data pat = (hasSub t.data pat || false)
      simp
    | cons t2 rest2 =>
      have hdata : (t ++ " " ++ joinSpace (t2 :: rest2)).data =
          t.data ++ ' ' :: (joinSpace (t2 :: rest2)).data := by
        rw [String.data_append, String.data_append, List.append_assoc]
        rfl
      rw [joinSpace_cons_cons, hdata, hasSub_sep hne hsp, ih]
      simp [List.any_cons]

theorem splitWsF_any_hasSub {pat : List Char} :
    ∀ (n : Nat) (l : List Char),
      (splitWsF n l).any (fun t => hasSub t.data pat) = true → hasSub l pat = true := by
  intro n
  induction n with
  | zero => intro l h; simp [splitWsF] at h
  | succ m ih =>
    intro l h
    cases l with
    | nil => simp [splitWsF] at h
    | cons c cs =>
      by_cases hws : isWsChar c = true
      · rw [splitWsF, if_pos hws] at h
        exact hasSub_cons_of c (ih cs h)
      · rw [splitWsF, if_neg hws] at h
        rw [List.any_cons, Bool.or_eq_true] at h
        have hsplit : (c :: cs : List Char) =
            (c :: cs.takeWhile (fun d => !isWsChar d)) ++ cs.dropWhile (fun d => !isWsChar d) := by
          rw [List.cons_append, List.takeWhile_append_dropWhile]
        rcases h with h | h
        · rw [hsplit]
          exact hasSub_append_left h _
        · rw [hsplit]
          exact hasSub_append_right (ih _ h) _

theorem splitWs_member_hasSub {pat : List Char} {l : List Char}
    (hno : hasSub l pat = false) {t : String} (ht : t ∈ splitWs l) :
    hasSub t.data pat = false := by
  by_contra hcon
  rw [Bool.not_eq_false] at hcon
  have hany : (splitWs l).any (fun t => hasSub t.data pat) = true :=
    List.any_eq_true.mpr ⟨t, ht, hcon⟩
  rw [splitWsF_any_hasSub _ _ hany] at hno
  cases hno

/-! ### Decimal digits of the attempt counter -/

theorem digitChar_lt10_isDigit {m : Nat} (h : m < 10) : (Nat.digitChar m).isDigit = true := by
  interval_cases m <;> rfl

theorem toDigitsCore_digits :
    ∀ (fuel n : Nat) (ds : List Char), (∀ c ∈ ds, c.isDigit = true) →
      ∀ c ∈ Nat.toDigitsCore 10 fuel n ds, c.isDigit = true := by
  intro fuel
  induction fuel with
  | zero => intro n ds h; simpa [Nat.toDigitsCore] using h
  | succ f ih =>
    intro n ds h c hc
    rw [Nat.toDigitsCore] at hc
    have hdig : (Nat.digitChar (n % 10)).isDigit = true :=
      digitChar_lt10_isDigit (Nat.mod_lt _ (by norm_num))
    have hds : ∀ x ∈ Nat.digitChar (n % 10) :: ds, x.isDigit = true := by
      intro x hx
      rcases List.mem_cons.mp hx with rfl | hx
      · exact hdig
      · exact h x hx
    by_cases hz : n / 10 = 0
    · simp only [hz, if_true] at hc
      exact hds c hc
    · simp only [hz, if_false] at hc
      exact ih _ _ hds c hc

theorem natRepr_digits {n : Nat} {c : Char} (hc : c ∈ (Nat.repr n).data) : c.isDigit = true := by
  have hrepr : (Nat.repr n).data = Nat.toDigitsCore 10 (n + 1) n [] := rfl
  rw [hrepr] at hc
  exact toDigitsCore_digits _ _ _ (by intro x hx; cases hx) c hc

/-! ### Dependency-map algebra (for re-ingestion idempotence) -/

theorem hasKey_mapSet_self (m : DepMap) (k : String) (v : List String) :
    hasKey (mapSet m k v) k = true := by
  unfold mapSet
  split
  · next hk =>
    unfold hasKey at hk ⊢
    obtain ⟨p, hp, hpk⟩ := List.any_eq_true.mp hk
    refine List.any_eq_true.mpr ⟨(p.1, v), ?_, hpk⟩
    have he : (if p.1 == k then (p.1, v) else p) = (p.1, v) := by rw [if_pos hpk]
    exact he ▸ List.mem_map_of_mem _ hp
  · unfold hasKey
    exact List.any_eq_true.mpr
      ⟨(k, v), List.mem_append_right _ (List.mem_singleton.mpr rfl), by simp⟩

theorem hasKey_mapSet_mono {m : DepMap} {a : String} (h : hasKey m a = true)
    (k : String) (v : List String) : hasKey (mapSet m k v) a = true := by
  unfold mapSet
  split
  · unfold hasKey at h ⊢
    obtain ⟨p, hp, hpa⟩ := List.any_eq_true.mp h
    by_cases hpk : (p.1 == k) = true
    · refine List.any_eq_true.mpr ⟨(p.1, v), ?_, hpa⟩
      have he : (if p.1 == k then (p.1, v) else p) = (p.1, v) := by rw [if_pos hpk]
      exact he ▸ List.mem_map_of_mem _ hp
    · refine List.any_eq_true.mpr ⟨p, ?_, hpa⟩
      have he : (if p.1 == k then (p.1, v) else p) = p := by
        rw [if_neg (by simpa using hpk)]
      exact he ▸ List.mem_map_of_mem _ hp
  · unfold hasKey at h ⊢
    obtain ⟨p, hp, hpa⟩ := List.any_eq_true.mp h
    exact List.any_eq_true.mpr ⟨p, List.mem_append_left _ hp, hpa⟩

theorem hasKey_map_upd (m : DepMap) (k a : String) (v : List String) :
    hasKey (m.map fun p => if p.1 == k then (p.1, v) else p) a = hasKey m a := by
  induction m with
  | nil => rfl
  | cons p rest ih =>
    rw [List.map_cons]
    unfold hasKey at ih ⊢
    rw [List.any_cons, List.any_cons, ih]
    congr 1
    by_cases hp : (p.1 == k) = true <;> simp [hp]

theorem hasKey_append_right (m : DepMap) (k : String) (v : List String) :
    hasKey (m ++ [(k, v)]) k = true := by
  unfold hasKey
  exact List.any_eq_true.mpr
    ⟨(k, v), List.mem_append_right _ (List.mem_singleton.mpr rfl), by simp⟩

theorem mapSet_absorb (m : DepMap) (k : String) (v w : List String) :
    mapSet (mapSet m k v) k w = mapSet m k w := by
  by_cases hk : hasKey m k = true
  · have h1 : mapSet m k v = m.map fun p => if p.1 == k then (p.1, v) else p := by
      rw [mapSet, if_pos hk]
    rw [h1, mapSet, if_pos (by rw [hasKey_map_upd]; exact hk), List.map_map, mapSet, if_pos hk]
    apply List.map_congr_left
    intro p _
    by_cases hd : p.1 = k <;> simp [hd]
  · have hk' : hasKey m k = false := by simpa using hk
    have h1 : mapSet m k v = m ++ [(k, v)] := by rw [mapSet, if_neg (by simp [hk'])]
    rw [h1, mapSet, if_pos (hasKey_append_right m k v), List.map_append, mapSet,
      if_neg (by simp [hk'])]
    congr 1
    · have hnone := List.any_eq_false.mp hk'
      have hcongr : (m.map fun p => if p.1 == k then (p.1, w) else p) = m.map fun p => p := by
        apply List.map_congr_left
        intro p hp
        have hpk : (p.1 == k) = false := by simpa using hnone p hp
        simp [hpk]
      rw [hcongr, List.map_id']
    · simp

theorem mapSet_comm {m : DepMap} {k k' : String} (hk : hasKey m k = true)
    (hne : k ≠ k') (v w : List String) :
    mapSet (mapSet m k v) k' w = mapSet (mapSet m k' w) k v := by
  by_cases hk2 : hasKey m k' = true
  · have e1 : mapSet m k v = m.map fun p => if p.1 == k then (p.1, v) else p := by
      rw [mapSet, if_pos hk]
    have e2 : mapSet m k' w = m.map fun p => if p.1 == k' then (p.1, w) else p := by
      rw [mapSet, if_pos hk2]
    rw [e1, mapSet, if_pos (by rw [hasKey_map_upd]; exact hk2), List.map_map,
        e2, mapSet, if_pos (by rw [hasKey_map_upd]; exact hk), List.map_map]
    apply List.map_congr_left
    intro p _
    by_cases hd : p.1 = k
    · have hd2 : p.1 ≠ k' := fun h => hne (hd.symm.trans h)
      simp [hd, hd2, hne]
    · by_cases hd2 : p.1 = k' <;> simp [hd, hd2, Ne.symm hne]
  · have hk2' : hasKey m k' = false := by simpa using hk2
    have e1 : mapSet m k v = m.map fun p => if p.1 == k then (p.1, v) else p := by
      rw [mapSet, if_pos hk]
    have e2 : mapSet m k' w = m ++ [(k', w)] := by rw [mapSet, if_neg (by simp [hk2'])]
    have hmapk2 : ¬ hasKey (m.map fun p => if p.1 == k then (p.1, v) else p) k' = true := by
      rw [hasKey_map_upd, hk2']
      exact Bool.false_ne_true
    have happk : hasKey (m ++ [(k', w)]) k = true := by
      unfold hasKey at hk ⊢
      obtain ⟨p, hp, hpk⟩ := List.any_eq_true.mp hk
      exact List.any_eq_true.mpr ⟨p, List.mem_append_left _ hp, hpk⟩
    rw [e1, mapSet, if_neg hmapk2, e2, mapSet, if_pos happk, List.map_append]
    congr 1
    rw [List.map_singleton]
    rw [show ((k', w) : String × List String).1 = k' from rfl]
    rw [if_neg (show ¬ (k' == k) = true from fun h => hne (eq_of_beq h).symm)]

theorem foldl_mapSet_hasKey {a : String} :
    ∀ (L : List (String × List String)) (m : DepMap), hasKey m a = true →
      hasKey (L.foldl (fun acc e => mapSet acc e.1 e.2) m) a = true
  | [], _, h => h
  | e :: L', m, h =>
    foldl_mapSet_hasKey L' (mapSet m e.1 e.2) (hasKey_mapSet_mono h e.1 e.2)

theorem foldl_mapSet_update {k : String} :
    ∀ (L : List (String × List String)) (m : DepMap) (v : List String), hasKey m k = true →
      L.foldl (fun acc e => mapSet acc e.1 e.2) (mapSet m k v) =
        mapSet (L.foldl (fun acc e => mapSet acc e.1 e.2) m) k
          (L.foldl (fun acc e => if e.1 == k then e.2 else acc) v) := by
  intro L
  induction L with
  | nil => intro m v _; rfl
  | cons e L' ih =>
    intro m v hk
    rw [List.foldl_cons, List.foldl_cons, List.foldl_cons]
    by_cases he : (e.1 == k) = true
    · have hek : e.1 = k := eq_of_beq he
      rw [show mapSet (mapSet m k v) e.1 e.2 = mapSet m k e.2 by rw [hek, mapSet_absorb],
          if_pos he,
          show mapSet m e.1 e.2 = mapSet m k e.2 by rw [hek],
          ih m e.2 hk, mapSet_absorb]
    · have hek : k ≠ e.1 := by
        intro h
        rw [h] at he
        simp at he
      rw [if_neg (by simpa using he),
          show mapSet (mapSet m k v) e.1 e.2 = mapSet (mapSet m e.1 e.2) k v from
            mapSet_comm hk hek v e.2]
      exact ih (mapSet m e.1 e.2) v (hasKey_mapSet_mono hk e.1 e.2)

theorem mapSet_noop {m : DepMap} {k : String} {v : List String}
    (hk : hasKey m k = true) (hv : ∀ p ∈ m, (p.1 == k) = true → p.2 = v) :
    mapSet m k v = m := by
  rw [mapSet, if_pos hk]
  have hcongr : (m.map fun p => if p.1 == k then (p.1, v) else p) = m.map fun p => p := by
    apply List.map_congr_left
    intro p hp
    by_cases hpk : (p.1 == k) = true
    · have h2 := hv p hp hpk
      rw [if_pos hpk, ← h2]
    · rw [if_neg (by simpa using hpk)]
  rw [hcongr, List.map_id']

theorem mapSet_inv {m : DepMap} {k : String} {v : List String}
    (hv : ∀ p ∈ m, (p.1 == k) = true → p.2 = v) (e1 : String) (e2 : List String) :
    ∀ p ∈ mapSet m e1 e2, (p.1 == k) = true →
      p.2 = (if e1 == k then e2 else v) := by
  intro p hp hpk
  rw [mapSet] at hp
  split at hp
  · obtain ⟨q, hq, hfq⟩ := List.mem_map.mp hp
    by_cases hq1 : (q.1 == e1) = true
    · rw [if_pos hq1] at hfq
      subst hfq
      have hqk : (q.1 == k) = true := hpk
      have h1 : q.1 = e1 := eq_of_beq hq1
      have h2 : q.1 = k := eq_of_beq hqk
      have he1k : (e1 == k) = true := beq_iff_eq.mpr (h1 ▸ h2)
      rw [if_pos he1k]
    · rw [if_neg (by simpa using hq1)] at hfq
      subst hfq
      have he1k : (e1 == k) = false := by
        by_contra hc
        rw [Bool.not_eq_false] at hc
        have h1 : e1 = k := eq_of_beq hc
        have h2 : q.1 = k := eq_of_beq hpk
        rw [← h1] at h2
        rw [beq_iff_eq.mpr h2] at hq1
        simp at hq1
      rw [if_neg (by simp [he1k])]
      exact hv q hq hpk
  · next hnk =>
    rcases List.mem_append.mp hp with hpm | hps
    · have he1k : (e1 == k) = false := by
        by_contra hc
        rw [Bool.not_eq_false] at hc
        have h1 : e1 = k := eq_of_beq hc
        apply hnk
        unfold hasKey
        refine List.any_eq_true.mpr ⟨p, hpm, ?_⟩
        rw [beq_iff_eq] at hpk ⊢
        rw [hpk, h1]
      rw [if_neg (by simp [he1k])]
      exact hv p hpm hpk
    · have hpe : p = (e1, e2) := List.mem_singleton.mp hps
      subst hpe
      rw [if_pos hpk]

theorem foldl_mapSet_inv {k : String} :
    ∀ (L : List (String × List String)) (m : DepMap) (v : List String),
      (∀ p ∈ m, (p.1 == k) = true → p.2 = v) →
      ∀ p ∈ L.foldl (fun acc e => mapSet acc e.1 e.2) m, (p.1 == k) = true →
        p.2 = L.foldl (fun acc e => if e.1 == k then e.2 else acc) v := by
  intro L
  induction L with
  | nil => intro m v hv; exact hv
  | cons e L' ih =>
    intro m v hv
    rw [List.foldl_cons, List.foldl_cons]
    apply ih
    by_cases he : (e.1 == k) = true
    · rw [if_pos he]
      have := mapSet_inv hv e.1 e.2
      intro p hp hpk
      have h2 := this p hp hpk
      rw [if_pos he] at h2
      exact h2
    · rw [if_neg (by simpa using he)]
      intro p hp hpk
      have h2 := mapSet_inv hv e.1 e.2 p hp hpk
      rw [if_neg (by simpa using he)] at h2
      exact h2

theorem mapSet_base_inv (m : DepMap) (k : String) (v : List String) :
    ∀ p ∈ mapSet m k v, (p.1 == k) = true → p.2 = v := by
  intro p hp hpk
  rw [mapSet] at hp
  split at hp
  · obtain ⟨q, hq, hfq⟩ := List.mem_map.mp hp
    by_cases hq1 : (q.1 == k) = true
    · rw [if_pos hq1] at hfq
      subst hfq
      rfl
    · rw [if_neg (by simpa using hq1)] at hfq
      subst hfq
      rw [hpk] at hq1
      simp at hq1
  · next hnk =>
    rcases List.mem_append.mp hp with hpm | hps
    · exfalso
      apply hnk
      unfold hasKey
      exact List.any_eq_true.mpr ⟨p, hpm, hpk⟩
    · rw [List.mem_singleton.mp hps]

theorem foldl_mapSet_idem :
    ∀ (L : List (String × List String)) (m : DepMap),
      L.foldl (fun acc e => mapSet acc e.1 e.2)
          (L.foldl (fun acc e => mapSet acc e.1 e.2) m) =
        L.foldl (fun acc e => mapSet acc e.1 e.2) m := by
  intro L
  induction L with
  | nil => intro m; rfl
  | cons e L' ih =>
    intro m
    rw [List.foldl_cons, List.foldl_cons]
    have hk1 : hasKey (mapSet m e.1 e.2) e.1 = true := hasKey_mapSet_self m e.1 e.2
    have hkF : hasKey (L'.foldl (fun acc e => mapSet acc e.1 e.2) (mapSet m e.1 e.2)) e.1 = true :=
      foldl_mapSet_hasKey L' _ hk1
    rw [foldl_mapSet_update L' _ e.2 hkF, ih (mapSet m e.1 e.2)]
    apply mapSet_noop hkF
    exact foldl_mapSet_inv L' (mapSet m e.1 e.2) e.2 (mapSet_base_inv m e.1 e.2)

/-! ### Closure-resolution lemmas -/

theorem contains_false_not_mem {l : List String} {a : String}
    (h : l.contains a = false) : a ∉ l := by
  intro hmem
  have ht : l.contains a = true := List.contains_iff_exists_mem_beq.mpr ⟨a, hmem, by simp⟩
  rw [ht] at h
  cases h

theorem resolveDependencies_eq (dm : DepMap) (m : String) (visited : List String) :
    resolveDependencies dm m visited =
      if visited.contains m then [m]
      else
        match mapGet dm m with
        | none => [m]
        | some deps =>
          deps.foldl (fun acc dep => setUnion acc (resolveDependencies dm dep (m :: visited))) [m] := by
  rw [resolveDependencies]
  split
  · rfl
  · split
    · next hg => rw [hg]
    · next deps hg => rw [hg]

theorem setAdd_nodup {acc : List String} (h : acc.Nodup) (d : String) : (setAdd acc d).Nodup := by
  unfold setAdd
  split
  · exact h
  · next hc =>
    have hnotmem : d ∉ acc := by
      intro hd
      exact hc (List.contains_iff_exists_mem_beq.mpr ⟨d, hd, by simp⟩)
    rw [List.nodup_append]
    refine ⟨h, List.nodup_singleton d, fun a ha hb => ?_⟩
    simp only [List.mem_singleton] at hb
    subst hb
    exact hnotmem ha

theorem setUnion_nodup {acc : List String} (h : acc.Nodup) :
    ∀ sub : List String, (setUnion acc sub).Nodup := by
  intro sub
  unfold setUnion
  induction sub generalizing acc with
  | nil => exact h
  | cons d rest ih => exact ih (setAdd_nodup h d)

theorem setAdd_mem_of {acc : List String} {x : String} (h : x ∈ acc) (d : String) :
    x ∈ setAdd acc d := by
  unfold setAdd
  split
  · exact h
  · exact List.mem_append_left _ h

theorem setUnion_mem_of {acc : List String} {x : String} (h : x ∈ acc) (sub : List String) :
    x ∈ setUnion acc sub := by
  unfold setUnion
  induction sub generalizing acc with
  | nil => exact h
  | cons d rest ih => exact ih (setAdd_mem_of h d)

theorem foldl_union_mem {x : String} (f : String → List String) :
    ∀ (deps acc : List String), x ∈ acc → x ∈ deps.foldl (fun a d => setUnion a (f d)) acc
  | [], _, h => h
  | _ :: rest, _, h => foldl_union_mem f rest _ (setUnion_mem_of h _)

theorem foldl_union_nodup (f : String → List String) :
    ∀ (deps acc : List String), acc.Nodup → (deps.foldl (fun a d => setUnion a (f d)) acc).Nodup
  | [], _, h => h
  | _ :: rest, _, h => foldl_union_nodup f rest _ (setUnion_nodup h _)

theorem resolveDependencies_self_mem_nodup (dm : DepMap) (m : String) (visited : List String) :
    m ∈ resolveDependencies dm m visited ∧ (resolveDependencies dm m visited).Nodup := by
  rw [resolveDependencies_eq]
  split
  · simp
  · split
    · simp
    · constructor
      · exact foldl_union_mem _ _ [m] (by simp)
      · exact foldl_union_nodup _ _ [m] (List.nodup_singleton m)

theorem resolve_empty_map (name : String) : resolveDependencies [] name [] = [name] := by
  rw [resolveDependencies_eq]
  rfl

theorem resolve_cycle_inner :
    resolveDependencies [("A", ["B"]), ("B", ["A"])] "A" ["B", "A"] = ["A"] := by
  rw [resolveDependencies_eq]
  simp

theorem resolve_cycle_mid :
    resolveDependencies [("A", ["B"]), ("B", ["A"])] "B" ["A"] = ["B", "A"] := by
  rw [resolveDependencies_eq]
  have hg : mapGet [("A", ["B"]), ("B", ["A"])] "B" = some ["A"] := rfl
  rw [hg]
  simp [setUnion, setAdd, resolve_cycle_inner]

theorem resolve_cycle_full :
    resolveDependencies [("A", ["B"]), ("B", ["A"])] "A" [] = ["A", "B"] := by
  rw [resolveDependencies_eq]
  have hg : mapGet [("A", ["B"]), ("B", ["A"])] "A" = some ["B"] := rfl
  rw [hg]
  simp [setUnion, setAdd, resolve_cycle_mid]

/-! ### Report-parser record lemmas -/

theorem caseToFailedTest_isSome (tc : XTestCase) :
    (caseToFailedTest tc).isSome = goodCase tc := by
  unfold caseToFailedTest goodCase
  by_cases hm : (tc.failure || tc.err) = true
  · rw [if_pos hm, hm, Bool.true_and]
    by_cases hf : (jsFalsy tc.clazz || jsFalsy tc.name || jsFalsy tc.file) = true
    · rw [if_pos hf, hf]
      rfl
    · rw [if_neg hf]
      rw [Bool.not_eq_true] at hf
      rw [hf]
      rfl
  · rw [if_neg hm]
    rw [Bool.not_eq_true] at hm
    rw [hm, Bool.false_and]
    rfl

theorem filterMap_case_length (l : List XTestCase) :
    (l.filterMap caseToFailedTest).length = (l.filter goodCase).length := by
  induction l with
  | nil => rfl
  | cons tc rest ih =>
    rw [List.filterMap_cons, List.filter_cons]
    cases hc : caseToFailedTest tc with
    | none =>
      have hg : goodCase tc = false := by
        rw [← caseToFailedTest_isSome, hc]
        rfl
      rw [hg]
      simpa using ih
    | some r =>
      have hg : goodCase tc = true := by
        rw [← caseToFailedTest_isSome, hc]
        rfl
      rw [hg, if_pos rfl]
      simp [ih]

theorem lastComponent_nonempty {full : String} (h : full.isEmpty = false) :
    (lastComponent full).isEmpty = false := by
  show (let last := String.mk ((splitOnBS full.data).getLast?.getD [])
        if last.isEmpty then full else last).isEmpty = false
  by_cases hl : (String.mk ((splitOnBS full.data).getLast?.getD [])).isEmpty = true
  · rw [show (let last := String.mk ((splitOnBS full.data).getLast?.getD [])
          if last.isEmpty then full else last) = full from if_pos hl]
    exact h
  · rw [show (let last := String.mk ((splitOnBS full.data).getLast?.getD [])
          if last.isEmpty then full else last) =
        String.mk ((splitOnBS full.data).getLast?.getD []) from if_neg hl]
    simpa using hl

theorem caseToFailedTest_recOK {tc : XTestCase} {r : FailedTest}
    (h : caseToFailedTest tc = some r) : recOK r := by
  unfold caseToFailedTest at h
  by_cases hm : (tc.failure || tc.err) = true
  · rw [if_pos hm] at h
    by_cases hf : (jsFalsy tc.clazz || jsFalsy tc.name || jsFalsy tc.file) = true
    · rw [if_pos hf] at h
      cases h
    · rw [if_neg hf] at h
      have hr := Option.some.inj h
      rw [Bool.or_eq_true, Bool.or_eq_true] at hf
      push_neg at hf
      have hcl : jsFalsy tc.clazz = false := by simpa using hf.1.1
      have hnm : jsFalsy tc.name = false := by simpa using hf.1.2
      have hfi : jsFalsy tc.file = false := by simpa using hf.2
      obtain ⟨sc, hsc, hscne⟩ : ∃ s, tc.clazz = some s ∧ s.isEmpty = false := by
        cases hc : tc.clazz with
        | none => rw [hc] at hcl; cases hcl
        | some s =>
          rw [hc] at hcl
          exact ⟨s, rfl, hcl⟩
      obtain ⟨sn, hsn, hsnne⟩ : ∃ s, tc.name = some s ∧ s.isEmpty = false := by
        cases hc : tc.name with
        | none => rw [hc] at hnm; cases hnm
        | some s =>
          rw [hc] at hnm
          exact ⟨s, rfl, hnm⟩
      obtain ⟨sf, hsf, hsfne⟩ : ∃ s, tc.file = some s ∧ s.isEmpty = false := by
        cases hc : tc.file with
        | none => rw [hc] at hfi; cases hfi
        | some s =>
          rw [hc] at hfi
          exact ⟨s, rfl, hfi⟩
      subst hr
      refine ⟨?_, ?_, ?_, ?_⟩
      · simp [hsn, hsnne]
      · simp [hsf, hsfne]
      · show ¬ (lastComponent (tc.clazz.getD "")).isEmpty = true
        rw [hsc, Option.getD_some]
        simp [lastComponent_nonempty hscne]
      · refine ⟨tc.clazz.getD "", ?_, ?_, rfl⟩
        · rw [hsc]
          simpa using hscne
        · rw [hsn]
  · rw [if_neg hm] at h
    cases h

mutual

theorem suiteFailures_spec : ∀ s : XSuite,
    (suiteFailures s).length = countSuite s ∧ ∀ r ∈ suiteFailures s, recOK r := by
  intro s
  match s with
  | .mk a b c d nested cases =>
    have hn := nestedFailures_spec nested
    constructor
    · rw [suiteFailures, countSuite, List.length_append, hn.1, filterMap_case_length]
    · intro r hr
      rw [suiteFailures] at hr
      rcases List.mem_append.mp hr with hr | hr
      · exact hn.2 r hr
      · obtain ⟨tc, _, htc⟩ := List.mem_filterMap.mp hr
        exact caseToFailedTest_recOK htc

theorem nestedFailures_spec : ∀ n : Option (OneOrMany XSuite),
    (nestedFailures n).length = countNested n ∧ ∀ r ∈ nestedFailures n, recOK r := by
  intro n
  match n with
  | none => exact ⟨rfl, by intro r hr; cases hr⟩
  | some (.one s) =>
    have hs := suiteFailures_spec s
    exact ⟨hs.1, hs.2⟩
  | some (.many l) =>
    have hl := listFailures_spec l
    exact ⟨hl.1, hl.2⟩

theorem listFailures_spec : ∀ l : List XSuite,
    (listFailures l).length = countList l ∧ ∀ r ∈ listFailures l, recOK r := by
  intro l
  match l with
  | [] => exact ⟨rfl, by intro r hr; cases hr⟩
  | s :: rest =>
    have hs := suiteFailures_spec s
    have hrest := listFailures_spec rest
    constructor
    · rw [listFailures, countList, List.length_append, hs.1, hrest.1]
    · intro r hr
      rw [listFailures] at hr
      rcases List.mem_append.mp hr with hr | hr
      · exact hs.2 r hr
      · exact hrest.2 r hr

end

theorem parseXMLTop_spec (x : JUnitXML) :
    (parseXMLTop x).length = countTop x ∧ ∀ r ∈ parseXMLTop x, recOK r := by
  unfold parseXMLTop countTop
  exact listFailures_spec _

/-! ### Orchestrator-loop lemmas -/

theorem runFrom_trace_ge (env : Nat → AttemptEnv) (cfg : RunInputs) :
    ∀ (fuel attempt ec : Nat) (ft : List FailedTest) (dp : Bool) (dm : DepMap)
      (k : Nat) (c : String),
      (k, c) ∈ (runFrom env cfg fuel attempt ec ft dp dm).trace → attempt ≤ k := by
  intro fuel
  induction fuel with
  | zero =>
    intro attempt ec ft dp dm k c h
    simp [runFrom, mkLoopExit] at h
  | succ f ih =>
    intro attempt ec ft dp dm k c h
    rw [runFrom] at h
    by_cases hg : attempt > cfg.maxAttempts
    · rw [if_pos hg] at h
      simp [mkLoopExit] at h
    · rw [if_neg hg] at h
      simp only at h
      split at h
      · simp at h
        exact le_of_eq h.1.symm
      · simp at h
        exact le_of_eq h.1.symm
      · next code =>
        split at h
        · simp [mkLoopExit] at h
          exact le_of_eq h.1.symm
        · split at h
          · simp [mkLoopExit] at h
            exact le_of_eq h.1.symm
          · split at h
            · simp [mkLoopExit] at h
              exact le_of_eq h.1.symm
            · split at h
              · simp [mkLoopExit] at h
                exact le_of_eq h.1.symm
              · simp only [List.mem_cons] at h
                rcases h with h | h
                · exact le_of_eq (congrArg Prod.fst h).symm
                · exact Nat.le_of_succ_le (ih _ _ _ _ _ _ _ h)

theorem runFrom_timeout_spec (env : Nat → AttemptEnv) (cfg : RunInputs) :
    ∀ (fuel attempt ec : Nat) (ft : List FailedTest) (dp : Bool) (dm : DepMap)
      (k : Nat) (c : String),
      (env k).exec = ExecOutcome.timedOut →
      (k, c) ∈ (runFrom env cfg fuel attempt ec ft dp dm).trace →
      (runFrom env cfg fuel attempt ec ft dp dm).outcome =
          RunOutcome.aborted (timeoutMsg cfg.timeoutMinutes) ∧
        ∀ j c', (j, c') ∈ (runFrom env cfg fuel attempt ec ft dp dm).trace → j ≤ k := by
  intro fuel
  induction fuel with
  | zero =>
    intro attempt ec ft dp dm k c _ h
    simp [runFrom, mkLoopExit] at h
  | succ f ih =>
    intro attempt ec ft dp dm k c htv h
    generalize hR : runFrom env cfg (f + 1) attempt ec ft dp dm = R at h ⊢
    rw [runFrom] at hR
    by_cases hg : attempt > cfg.maxAttempts
    · rw [if_pos hg] at hR
      subst hR
      simp [mkLoopExit] at h
    · rw [if_neg hg] at hR
      simp only at hR
      split at hR
      · next msg heq =>
        subst hR
        simp at h
        rw [h.1, heq] at htv
        simp at htv
      · next heq =>
        subst hR
        simp at h
        refine ⟨rfl, ?_⟩
        intro j c' hj
        simp at hj
        rw [h.1, hj.1]
      · next code heq =>
        split at hR
        · subst hR
          simp [mkLoopExit] at h
          rw [h.1, heq] at htv
          simp at htv
        · split at hR
          · subst hR
            simp [mkLoopExit] at h
            rw [h.1, heq] at htv
            simp at htv
          · split at hR
            · subst hR
              simp [mkLoopExit] at h
              rw [h.1, heq] at htv
              simp at htv
            · split at hR
              · subst hR
                simp [mkLoopExit] at h
                rw [h.1, heq] at htv
                simp at htv
              · subst hR
                simp only [List.mem_cons] at h
                rcases h with h | h
                · have hk : k = attempt := congrArg Prod.fst h
                  rw [hk, heq] at htv
                  simp at htv
                · have hrec := ih (attempt + 1) code (parseXMLTop _)
                    (if attempt == 1 then
                      computeDependenciesParsed (parseXMLTop _)
                        (fun fl => ((env attempt).lookup fl).isSome)
                    else dp)
                    (if attempt == 1 then ingestFiles dm (parseXMLTop _) (env attempt).lookup
                     else dm) k c htv h
                  constructor
                  · simpa using hrec.1
                  · intro j c' hj
                    simp only [List.mem_cons] at hj
                    rcases hj with hj | hj
                    · have hk := runFrom_trace_ge env cfg _ _ _ _ _ _ _ _ h
                      have : j = attempt := congrArg Prod.fst hj
                      omega
                    · exact hrec.2 j c' (by simpa using hj)

theorem runFrom_missing_report_spec (env : Nat → AttemptEnv) (cfg : RunInputs) :
    ∀ (fuel attempt ec : Nat) (ft : List FailedTest) (dp : Bool) (dm : DepMap)
      (k : Nat) (c : String) (code : Nat),
      (env k).exec = ExecOutcome.exited code →
      (code == 0) = false →
      (env k).report = none →
      (k, c) ∈ (runFrom env cfg fuel attempt ec ft dp dm).trace →
      (runFrom env cfg fuel attempt ec ft dp dm).outcome = RunOutcome.failed ∧
        (runFrom env cfg fuel attempt ec ft dp dm).exitCode = code ∧
        (runFrom env cfg fuel attempt ec ft dp dm).totalAttempts = k ∧
        ∀ j c', (j, c') ∈ (runFrom env cfg fuel attempt ec ft dp dm).trace → j ≤ k := by
  intro fuel
  induction fuel with
  | zero =>
    intro attempt ec ft dp dm k c code _ _ _ h
    simp [runFrom, mkLoopExit] at h
  | succ f ih =>
    intro attempt ec ft dp dm k c code hex hc0 hrep h
    generalize hR : runFrom env cfg (f + 1) attempt ec ft dp dm = R at h ⊢
    rw [runFrom] at hR
    by_cases hg : attempt > cfg.maxAttempts
    · rw [if_pos hg] at hR
      subst hR
      simp [mkLoopExit] at h
    · rw [if_neg hg] at hR
      simp only at hR
      split at hR
      · next msg heq =>
        subst hR
        simp at h
        rw [h.1, heq] at hex
        simp at hex
      · next heq =>
        subst hR
        simp at h
        rw [h.1, heq] at hex
        simp at hex
      · next code' heq =>
        split at hR
        · next hz =>
          subst hR
          simp [mkLoopExit] at h
          rw [h.1, heq] at hex
          have hcode' : code' = code := (ExecOutcome.exited.inj hex)
          rw [hcode'] at hz
          rw [hz] at hc0
          cases hc0
        · next hz =>
          split at hR
          · next heqr =>
            subst hR
            simp [mkLoopExit] at h
            have hk : k = attempt := h.1
            rw [hk, heq] at hex
            have hcode' : code' = code := (ExecOutcome.exited.inj hex)
            subst hcode'
            refine ⟨?_, rfl, ?_, ?_⟩
            · show (if (code' == 0) = true then RunOutcome.success else RunOutcome.failed) =
                RunOutcome.failed
              rw [if_neg (by rw [hc0]; exact Bool.false_ne_true)]
            · exact hk.symm
            · intro j c' hj
              simp [mkLoopExit] at hj
              rw [hj.1, hk]
          · next xml heqr =>
            split at hR
            · subst hR
              simp [mkLoopExit] at h
              rw [h.1, heqr] at hrep
              cases hrep
            · split at hR
              · subst hR
                simp [mkLoopExit] at h
                rw [h.1, heqr] at hrep
                cases hrep
              · subst hR
                simp only [List.mem_cons] at h
                rcases h with h | h
                · have hk : k = attempt := congrArg Prod.fst h
                  rw [hk, heqr] at hrep
                  cases hrep
                · have hrec := ih (attempt + 1) code' (parseXMLTop _)
                    (if attempt == 1 then
                      computeDependenciesParsed (parseXMLTop _)
                        (fun fl => ((env attempt).lookup fl).isSome)
                    else dp)
                    (if attempt == 1 then ingestFiles dm (parseXMLTop _) (env attempt).lookup
                     else dm) k c code hex hc0 hrep h
                  refine ⟨by simpa using hrec.1, by simpa using hrec.2.1,
                    by simpa using hrec.2.2.1, ?_⟩
                  intro j c' hj
                  simp only [List.mem_cons] at hj
                  rcases hj with hj | hj
                  · have hk := runFrom_trace_ge env cfg _ _ _ _ _ _ _ _ h
                    have hj' : j = attempt := congrArg Prod.fst hj
                    omega
                  · exact hrec.2.2.2 j c' (by simpa using hj)

/-! ### Command-construction lemmas for the fallback gate -/

theorem envTok_no_filter (n : Nat) :
    hasSub ("PHPUNIT_RETRY_ATTEMPT" ++ "=" ++ Nat.repr n).data "--filter".data = false := by
  by_contra hcon
  rw [Bool.not_eq_false] at hcon
  have hmem : '-' ∈ ("PHPUNIT_RETRY_ATTEMPT" ++ "=" ++ Nat.repr n).data := hasSub_head_mem hcon
  rw [String.data_append] at hmem
  rcases List.mem_append.mp hmem with hm | hm
  · have hnd : '-' ∉ ("PHPUNIT_RETRY_ATTEMPT" ++ "=").data := by decide
    exact hnd hm
  · have hd := natRepr_digits hm
    cases hd

theorem addEnvVar_no_filter {command : String}
    (hc : hasSub command.data "--filter".data = false) (n : Nat) :
    hasSub (addEnvVar command "PHPUNIT_RETRY_ATTEMPT" (Nat.repr n)).data "--filter".data = false := by
  have hne : ("--filter".data : List Char) ≠ [] := by decide
  have hsp : ' ' ∉ ("--filter".data : List Char) := by decide
  rw [addEnvVar]
  split
  · exact hc
  · split
    · next rest heq =>
      rw [joinSpace_any hne hsp]
      rw [List.any_eq_false]
      intro t ht
      rcases List.mem_append.mp ht with h1 | hD
      · rcases List.mem_append.mp h1 with h2 | hE
        · rcases List.mem_append.mp h2 with hA | hT
          · simp only [List.mem_cons, List.mem_singleton] at hA
            rcases hA with rfl | rfl | hA
            · decide
            · decide
            · cases hA
          · have hrest : t ∈ rest := List.take_subset _ _ hT
            have hmem : t ∈ splitWs command.data := by
              rw [heq]
              exact List.mem_cons_of_mem _ (List.mem_cons_of_mem _ hrest)
            simp [splitWs_member_hasSub hc hmem]
        · simp only [List.mem_cons, List.mem_singleton] at hE
          rcases hE with rfl | rfl | hE
          · decide
          · intro hcon
            rw [envTok_no_filter n] at hcon
            cases hcon
          · cases hE
      · have hrest : t ∈ rest := List.drop_subset _ _ hD
        have hmem : t ∈ splitWs command.data := by
          rw [heq]
          exact List.mem_cons_of_mem _ (List.mem_cons_of_mem _ hrest)
        simp [splitWs_member_hasSub hc hmem]
    · next rest heq =>
      rw [joinSpace_any hne hsp]
      rw [List.any_eq_false]
      intro t ht
      rcases List.mem_append.mp ht with h1 | hD
      · rcases List.mem_append.mp h1 with h2 | hE
        · rcases List.mem_append.mp h2 with hA | hT
          · simp only [List.mem_cons, List.mem_singleton] at hA
            rcases hA with rfl | rfl | rfl | hA
            · decide
            · decide
            · decide
            · cases hA
          · have hrest : t ∈ rest := List.take_subset _ _ hT
            have hmem : t ∈ splitWs command.data := by
              rw [heq]
              exact List.mem_cons_of_mem _ (List.mem_cons_of_mem _ (List.mem_cons_of_mem _ hrest))
            simp [splitWs_member_hasSub hc hmem]
        · simp only [List.mem_cons, List.mem_singleton] at hE
          rcases hE with rfl | rfl | hE
          · decide
          · intro hcon
            rw [envTok_no_filter n] at hcon
            cases hcon
          · cases hE
      · have hrest : t ∈ rest := List.drop_subset _ _ hD
        have hmem : t ∈ splitWs command.data := by
          rw [heq]
          exact List.mem_cons_of_mem _ (List.mem_cons_of_mem _ (List.mem_cons_of_mem _ hrest))
        simp [splitWs_member_hasSub hc hmem]
    · next rest heq =>
      rw [joinSpace_any hne hsp]
      rw [List.any_eq_false]
      intro t ht
      rcases List.mem_append.mp ht with h1 | hD
      · rcases List.mem_append.mp h1 with h2 | hE
        · rcases List.mem_append.mp h2 with hA | hT
          · simp only [List.mem_cons, List.mem_singleton] at hA
            rcases hA with rfl | rfl | hA
            · decide
            · decide
            · cases hA
          · have hrest : t ∈ rest := List.take_subset _ _ hT
            have hmem : t ∈ splitWs command.data := by
              rw [heq]
              exact List.mem_cons_of_mem _ (List.mem_cons_of_mem _ hrest)
            simp [splitWs_member_hasSub hc hmem]
        · simp only [List.mem_cons, List.mem_singleton] at hE
          rcases hE with rfl | rfl | hE
          · decide
          · intro hcon
            rw [envTok_no_filter n] at hcon
            cases hcon
          · cases hE
      · have hrest : t ∈ rest := List.drop_subset _ _ hD
        have hmem : t ∈ splitWs command.data := by
          rw [heq]
          exact List.mem_cons_of_mem _ (List.mem_cons_of_mem _ hrest)
        simp [splitWs_member_hasSub hc hmem]
    · exact hc

theorem addJUnitLogging_no_filter {c p : String}
    (hc : hasSub c.data "--filter".data = false)
    (hp : hasSub p.data "--filter".data = false) :
    hasSub (addJUnitLogging c p).data "--filter".data = false := by
  have hne : ("--filter".data : List Char) ≠ [] := by decide
  have hsp : ' ' ∉ ("--filter".data : List Char) := by decide
  rw [addJUnitLogging]
  split
  · exact hc
  · show hasSub (c ++ " --log-junit " ++
      (if isDockerCommand c then containerJunitPath else p)).data "--filter".data = false
    have hform : ∀ path : String, (c ++ " --log-junit " ++ path).data =
        c.data ++ ' ' :: ("--log-junit".data ++ ' ' :: path.data) := by
      intro path
      rw [String.data_append, String.data_append, List.append_assoc]
      rfl
    rw [hform, hasSub_sep hne hsp, hasSub_sep hne hsp]
    have h2 : hasSub "--log-junit".data "--filter".data = false := by decide
    rw [hc, h2]
    split
    · decide
    · simp [hp]

theorem mem_contains_true {l : List String} {a : String} (h : a ∈ l) : l.contains a = true :=
  List.contains_iff_exists_mem_beq.mpr ⟨a, h, by simp⟩

theorem dedupFirstAux_mem (x : String) :
    ∀ (l seen : List String), x ∈ dedupFirstAux seen l ↔ (x ∈ l ∧ x ∉ seen) := by
  intro l
  induction l with
  | nil => intro seen; simp [dedupFirstAux]
  | cons y ys ih =>
    intro seen
    rw [dedupFirstAux]
    by_cases hc : seen.contains y = true
    · rw [if_pos hc, ih seen]
      constructor
      · rintro ⟨hmem, hns⟩
        exact ⟨List.mem_cons_of_mem _ hmem, hns⟩
      · rintro ⟨hmem, hns⟩
        rcases List.mem_cons.mp hmem with rfl | hmem
        · exfalso
          apply hns
          obtain ⟨a', ha', hbeq⟩ := List.contains_iff_exists_mem_beq.mp hc
          rw [eq_of_beq hbeq]
          exact ha'
        · exact ⟨hmem, hns⟩
    · rw [if_neg hc, List.mem_cons, ih (y :: seen)]
      rw [Bool.not_eq_true] at hc
      constructor
      · rintro (rfl | ⟨hmem, hns⟩)
        · exact ⟨List.mem_cons_self _ _, contains_false_not_mem hc⟩
        · exact ⟨List.mem_cons_of_mem _ hmem, fun hx => hns (List.mem_cons_of_mem _ hx)⟩
      · rintro ⟨hmem, hns⟩
        rcases List.mem_cons.mp hmem with rfl | hmem
        · exact Or.inl rfl
        · by_cases hxy : x = y
          · exact Or.inl hxy
          · refine Or.inr ⟨hmem, fun hx => ?_⟩
            rcases List.mem_cons.mp hx with rfl | hx
            · exact hxy rfl
            · exact hns hx

theorem dedupFirst_mem (x : String) (l : List String) : x ∈ dedupFirst l ↔ x ∈ l := by
  unfold dedupFirst
  rw [dedupFirstAux_mem]
  simp

theorem filter_length_eq_iff (p : String → Bool) :
    ∀ l : List String, ((l.filter p).length = l.length) ↔ ∀ a ∈ l, p a = true := by
  intro l
  induction l with
  | nil => simp
  | cons a t ih =>
    rw [List.filter_cons]
    by_cases hp : p a = true
    · rw [if_pos hp]
      simp only [List.length_cons, Nat.add_right_cancel_iff, ih]
      constructor
      · intro h b hb
        rcases List.mem_cons.mp hb with rfl | hb
        · exact hp
        · exact h b hb
      · intro h b hb
        exact h b (List.mem_cons_of_mem _ hb)
    · rw [if_neg hp]
      constructor
      · intro h
        have hle := List.length_filter_le p t
        rw [List.length_cons] at h
        omega
      · intro h
        exact absurd (h a (List.mem_cons_self _ _)) hp

theorem computeDependenciesParsed_iff (tests : List FailedTest) (found : String → Bool) :
    computeDependenciesParsed tests found = true ↔ ∀ t ∈ tests, found t.file = true := by
  show (((dedupFirst (tests.map fun t => t.file)).filter found).length ==
      (dedupFirst (tests.map fun t => t.file)).length) = true ↔ _
  rw [beq_iff_eq, filter_length_eq_iff]
  constructor
  · intro h t ht
    exact h t.file ((dedupFirst_mem _ _).mpr (List.mem_map_of_mem _ ht))
  · intro h f hf
    obtain ⟨t, ht, rfl⟩ := List.mem_map.mp ((dedupFirst_mem _ _).mp hf)
    exact h t ht

/-! ## Claim theorems -/

theorem appended_logjunit_contains (c path : String) :
    strIncludes (c ++ " --log-junit " ++ path) "--log-junit" = true := by
  show hasSub (c ++ " --log-junit " ++ path).data "--log-junit".data = true
  have hform : (c ++ " --log-junit " ++ path).data =
      c.data ++ ' ' :: ("--log-junit".data ++ ' ' :: path.data) := by
    rw [String.data_append, String.data_append, List.append_assoc]
    rfl
  rw [hform]
  apply hasSub_append_right
  exact hasSub_cons_of ' '
    (hasSub_of_subAt (subAt_self_append ("--log-junit".data) (' ' :: path.data)))

/-- C1: counterexample evaluation at a concrete failing input.  The claim
says the selector anchors every failed test's fully-qualified identifier
with an end-of-string marker; buildFilterPattern in fact emits the raw
identifier: for the single failed test SampleTest::testCreate with an empty
dependency map the selector is exactly the unanchored identifier and
contains no dollar character at all, so testCreate would also match
testCreateProject (the repository's own unit tests expect every pipe
alternative to end in an anchor). -/
theorem c1_filter_pattern_unanchored :
    buildFilterPattern [] [sampleTestA] = "SampleTest::testCreate" ∧
      strIncludes "SampleTest::testCreate" "$" = false := by
  constructor
  · show joinPipe (setUnion [] (resolveDependencies [] sampleTestA.name [])) = _
    rw [resolve_empty_map]
    rfl
  · decide

/-- C2: closure resolution is a total function (the well-founded recursion
of resolveDependencies, whose measure is the set of dependency-map keys
not yet in the per-call visited set, is exactly the termination argument);
for every map the closure contains the queried test and has no duplicate
entries, so a cycle member is included once and not re-expanded; and for
the two-node cycle A to B to A the closure of A is exactly the set with A
and B. -/
theorem c2_closure_cycle_terminates :
    (∀ (dm : DepMap) (m : String) (visited : List String),
        m ∈ resolveDependencies dm m visited ∧ (resolveDependencies dm m visited).Nodup) ∧
      resolveDependencies [("A", ["B"]), ("B", ["A"])] "A" [] = ["A", "B"] :=
  ⟨resolveDependencies_self_mem_nodup, resolve_cycle_full⟩

/-- C3: the all-or-nothing dependency gate.  If some distinct failing
test's source file is not found on attempt 1, the gate computes false, any
later attempt's command (attempt number at least 2) is built exactly as
the full-suite command with no filter flag in it, and conversely the gate
computes true exactly when every failing test's file was found. -/
theorem c3_partial_dependencies_full_rerun
    (tests : List FailedTest) (found : String → Bool) (k : Nat)
    (cmd p : String) (dm : DepMap)
    (hmiss : ∃ t ∈ tests, found t.file = false) (hk : 2 ≤ k)
    (hcmd : strIncludes cmd "--filter" = false)
    (hp : strIncludes p "--filter" = false) :
    computeDependenciesParsed tests found = false ∧
      buildAttemptCommand cmd p k (computeDependenciesParsed tests found) dm tests =
        addEnvVar (addJUnitLogging cmd p) "PHPUNIT_RETRY_ATTEMPT" (Nat.repr k) ∧
      strIncludes
          (buildAttemptCommand cmd p k (computeDependenciesParsed tests found) dm tests)
          "--filter" = false ∧
      (computeDependenciesParsed tests found = true ↔ ∀ t ∈ tests, found t.file = true) := by
  have hfalse : computeDependenciesParsed tests found = false := by
    by_contra hcon
    rw [Bool.not_eq_false] at hcon
    obtain ⟨t, ht, htf⟩ := hmiss
    rw [(computeDependenciesParsed_iff tests found).mp hcon t ht] at htf
    cases htf
  have hk1 : (k == 1) = false := beq_eq_false_iff_ne.mpr (by omega)
  have hbuild : buildAttemptCommand cmd p k (computeDependenciesParsed tests found) dm tests =
      addEnvVar (addJUnitLogging cmd p) "PHPUNIT_RETRY_ATTEMPT" (Nat.repr k) := by
    unfold buildAttemptCommand
    rw [hfalse, hk1]
    rfl
  refine ⟨hfalse, hbuild, ?_, computeDependenciesParsed_iff tests found⟩
  rw [hbuild]
  exact addEnvVar_no_filter (addJUnitLogging_no_filter hcmd hp) k

theorem c3_partial_dependencies_full_rerun_witness :
    (∃ t ∈ [sampleTestA], (fun _ : String => false) t.file = false) ∧
      computeDependenciesParsed [sampleTestA] (fun _ => false) = false ∧
      buildAttemptCommand "vendor/bin/phpunit" "/ws/phpunit-junit.xml" 2
          (computeDependenciesParsed [sampleTestA] (fun _ => false)) [] [sampleTestA] =
        addEnvVar (addJUnitLogging "vendor/bin/phpunit" "/ws/phpunit-junit.xml")
          "PHPUNIT_RETRY_ATTEMPT" (Nat.repr 2) ∧
      strIncludes
          (buildAttemptCommand "vendor/bin/phpunit" "/ws/phpunit-junit.xml" 2
            (computeDependenciesParsed [sampleTestA] (fun _ => false)) [] [sampleTestA])
          "--filter" = false := by
  have hmiss : ∃ t ∈ [sampleTestA], (fun _ : String => false) t.file = false :=
    ⟨sampleTestA, List.mem_cons_self _ _, rfl⟩
  have h := c3_partial_dependencies_full_rerun [sampleTestA] (fun _ => false) 2
    "vendor/bin/phpunit" "/ws/phpunit-junit.xml" [] hmiss (by omega) (by decide) (by decide)
  exact ⟨hmiss, h.1, h.2.1, h.2.2.1⟩

/-- C4: a timeout is classified as an aborted run and is never retried.
Whenever the process of some executed attempt k is cut off by the
configured timeout (only possible with a positive configured timeout), the
whole run ends with the aborted outcome carrying the timeout message, and
no attempt after k is ever started (every attempt in the execution trace
is at most k).  The kill of the process tree itself is an operating-system
effect summarised by the timedOut oracle outcome. -/
theorem c4_timeout_aborts_never_retries
    (env : Nat → AttemptEnv) (cfg : RunInputs) (k : Nat) (c : String)
    (htime : 0 < cfg.timeoutMinutes)
    (hexec : (env k).exec = ExecOutcome.timedOut)
    (htrace : (k, c) ∈ (run env cfg).trace) :
    (run env cfg).outcome = RunOutcome.aborted (timeoutMsg cfg.timeoutMinutes) ∧
      ∀ j c', (j, c') ∈ (run env cfg).trace → j ≤ k :=
  runFrom_timeout_spec env cfg _ _ _ _ _ _ k c hexec htrace

theorem c4_timeout_aborts_never_retries_witness :
    (0 < sampleCfg.timeoutMinutes ∧
      (sampleEnvTimeout 1).exec = ExecOutcome.timedOut ∧
      (1, "vendor/bin/phpunit --log-junit /ws/phpunit-junit.xml") ∈
        (run sampleEnvTimeout sampleCfg).trace) ∧
      (run sampleEnvTimeout sampleCfg).outcome =
        RunOutcome.aborted (timeoutMsg sampleCfg.timeoutMinutes) ∧
      ∀ j c', (j, c') ∈ (run sampleEnvTimeout sampleCfg).trace → j ≤ 1 := by
  have h := c4_timeout_aborts_never_retries sampleEnvTimeout sampleCfg 1
    "vendor/bin/phpunit --log-junit /ws/phpunit-junit.xml" (by decide) rfl (by decide)
  exact ⟨⟨by decide, rfl, by decide⟩, h.1, h.2⟩

/-- C5: for every parsed report, under either root shape and arbitrary
nesting, the number of records returned equals the number of testcases
that carry a failure or error marker and have nonempty class, name, and
file attributes; every returned record has a nonempty method, file, and
display class and an id of the shape class-attribute :: method; and a
failing testcase with a missing (or empty) class, name, or file attribute
produces no record. -/
theorem c5_parse_failures_count_and_fields (x : JUnitXML) :
    ((parseXMLTop x).length = countTop x ∧ ∀ r ∈ parseXMLTop x, recOK r) ∧
      ∀ tc : XTestCase, (tc.failure || tc.err) = true →
        (jsFalsy tc.clazz || jsFalsy tc.name || jsFalsy tc.file) = true →
        caseToFailedTest tc = none := by
  refine ⟨parseXMLTop_spec x, ?_⟩
  intro tc hm hf
  unfold caseToFailedTest
  rw [if_pos hm, if_pos hf]

theorem c5_parse_failures_count_and_fields_witness :
    ((parseXMLTop sampleReport).length = countTop sampleReport ∧
        countTop sampleReport = 2 ∧ sampleRecord ∈ parseXMLTop sampleReport) ∧
      recOK sampleRecord ∧
      ((sampleBadCase.failure || sampleBadCase.err) = true ∧
        caseToFailedTest sampleBadCase = none) := by
  have h := c5_parse_failures_count_and_fields sampleReport
  refine ⟨⟨h.1.1, by decide, by decide⟩, h.1.2 sampleRecord (by decide), ⟨by decide, ?_⟩⟩
  exact h.2 sampleBadCase (by decide) (by decide)

/-- C6: counterexample to the claim as stated.  The container root of
negReport has a tests attribute that is present and nonzero (it parses to
minus one), yet getTestStats does not use the container's attributes: the
code requires the attribute to parse to a positive number and otherwise
sums the immediate children. -/
theorem c6_stats_negative_root_counterexample :
    negReport.testsuites =
      some
        { tests := some "-1", failures := some "7", errors := some "0", assertions := none,
          testsuite :=
            some (OneOrMany.one (XSuite.mk (some "4") (some "1") (some "0") (some "9")
              none none)) } ∧
      toNum (some "-1") = some (-1) ∧
      ngt0 (toNum (some "-1")) = false ∧
      getTestStats negReport = { total := some 4, failures := some 1, assertions := some 9 } ∧
      getTestStats negReport ≠
        { total := some (-1), failures := some 7, assertions := some 0 } := by
  refine ⟨rfl, rfl, rfl, by decide, by decide⟩

/-- C6 (amended): getTestStats uses the attributes on the top-level
testsuites container exactly when its tests attribute parses to a positive
number; otherwise it sums the immediate child suites' attributes with no
deeper recursion (witnessed concretely by deepReport, whose nested
grandchild attributes are ignored); a bare testsuite root with five tests
and two failures yields total five and failed two; and in every branch the
reported failed count is failures plus errors. -/
theorem c6_stats_roll_up :
    (∀ (x : JUnitXML) (c : XContainer), x.testsuites = some c →
        (ngt0 (toNum c.tests) = true →
          getTestStats x =
            { total := toNum c.tests,
              failures := nadd (toNum c.failures) (toNum c.errors),
              assertions := toNum c.assertions }) ∧
          (ngt0 (toNum c.tests) = false →
            getTestStats x =
              { total :=
                  (ensureArray c.testsuite).foldl (fun a s => nadd a (toNum s.tests)) (some 0),
                failures :=
                  nadd
                    ((ensureArray c.testsuite).foldl
                      (fun a s => nadd a (toNum s.failures)) (some 0))
                    ((ensureArray c.testsuite).foldl
                      (fun a s => nadd a (toNum s.errors)) (some 0)),
                assertions :=
                  (ensureArray c.testsuite).foldl
                    (fun a s => nadd a (toNum s.assertions)) (some 0) })) ∧
      getTestStats bareReport = { total := some 5, failures := some 2, assertions := some 0 } ∧
      getTestStats deepReport = { total := some 2, failures := some 1, assertions := some 4 } := by
  refine ⟨?_, by decide, by decide⟩
  intro x c hx
  constructor
  · intro hgt
    unfold getTestStats
    rw [hx]
    simp only
    rw [if_pos hgt]
  · intro hgt
    unfold getTestStats
    rw [hx]
    simp only
    rw [if_neg (by rw [hgt]; exact Bool.false_ne_true)]

theorem c6_stats_roll_up_witness :
    (posReport.testsuites = some posContainer ∧ ngt0 (toNum posContainer.tests) = true) ∧
      getTestStats posReport =
        { total := toNum posContainer.tests,
          failures := nadd (toNum posContainer.failures) (toNum posContainer.errors),
          assertions := toNum posContainer.assertions } := by
  have h := (c6_stats_roll_up.1 posReport posContainer rfl).1 (by decide)
  exact ⟨⟨rfl, by decide⟩, h⟩

/-- C7: counterexample to the claim as stated.  parseXMLFile reads the
report with readFileSync, which raises on a missing file (embedded as the
error value): it does not return a benign no-report value for every
report path. -/
theorem c7_parse_missing_raises :
    parseXMLFileF none = Except.error "ENOENT: no such file or directory" ∧
      (parseXMLFileF none).isOk = false := by
  exact ⟨rfl, rfl⟩

/-- C7 (amended): the orchestrator, not the parser, realises the no-crash
behaviour: it checks the report's existence before parsing, and when the
report of a nonzero-exit attempt k is missing, the run stops there (no
later attempt appears in the trace), ends in the failed outcome, and
surfaces that attempt's exit code; a readable report never raises — it
parses to its (possibly empty) record list. -/
theorem c7_missing_report_halts
    (env : Nat → AttemptEnv) (cfg : RunInputs) (k : Nat) (c : String) (code : Nat)
    (hexec : (env k).exec = ExecOutcome.exited code)
    (hcode : (code == 0) = false)
    (hrep : (env k).report = none)
    (htrace : (k, c) ∈ (run env cfg).trace) :
    ((run env cfg).outcome = RunOutcome.failed ∧ (run env cfg).exitCode = code ∧
        (run env cfg).totalAttempts = k ∧
        ∀ j c', (j, c') ∈ (run env cfg).trace → j ≤ k) ∧
      ∀ x : JUnitXML, parseXMLFileF (some x) = Except.ok (parseXMLTop x) :=
  ⟨runFrom_missing_report_spec env cfg _ _ _ _ _ _ k c code hexec hcode hrep htrace,
    fun _ => rfl⟩

theorem c7_missing_report_halts_witness :
    ((sampleEnvNoReport 1).exec = ExecOutcome.exited 2 ∧
        (sampleEnvNoReport 1).report = none ∧
        (1, "vendor/bin/phpunit --log-junit /ws/phpunit-junit.xml") ∈
          (run sampleEnvNoReport sampleCfg).trace) ∧
      (run sampleEnvNoReport sampleCfg).outcome = RunOutcome.failed ∧
      (run sampleEnvNoReport sampleCfg).exitCode = 2 ∧
      (run sampleEnvNoReport sampleCfg).totalAttempts = 1 := by
  have h := c7_missing_report_halts sampleEnvNoReport sampleCfg 1
    "vendor/bin/phpunit --log-junit /ws/phpunit-junit.xml" 2 rfl (by decide) rfl (by decide)
  exact ⟨⟨rfl, rfl, by decide⟩, h.1.1, h.1.2.1, h.1.2.2.1⟩

/-- C8: the tokenizer and flag-skipping of extractContainerName work as
claimed for commands that begin with the invocation keywords (including a
value-taking flag consuming its detached value), but the claimed tolerance
of leading NAME=value tokens is absent: with a leading environment
assignment the keyword match at token zero fails and the extraction
returns null, although the repository's own unit tests expect the
container name to be extracted (code bug, evaluated at the unit tests'
inputs). -/
theorem c8_container_name_env_prefix :
    extractContainerName "docker compose exec -T appwrite test /usr/src/code/tests" =
        some "appwrite" ∧
      extractContainerName "docker exec -u root -e FOO=1 my-container vendor/bin/phpunit" =
        some "my-container" ∧
      extractContainerName
          "_APP_VAR=value docker compose exec -T appwrite test /usr/src/code/tests" = none := by
  exact ⟨rfl, rfl, rfl⟩

/-- C9: re-ingesting the same source text twice leaves the dependency map
exactly as ingesting it once, for every starting map: the second pass
re-writes each extracted entry onto a map in which its key is already
present with its final value, an in-place no-op. -/
theorem c9_reingestion_idempotent (m : DepMap) (s : String) :
    parseTestFile (parseTestFile m s) s = parseTestFile m s :=
  foldl_mapSet_idem (extractEntries s) m

/-- C10: addJUnitLogging never produces a duplicated report-logging flag:
a command already containing the flag is returned unchanged, applying the
transform twice equals applying it once, and when the flag is absent
exactly one flag is appended — pointing at the fixed container path for a
containerized command and at the given local path otherwise. -/
theorem c10_junit_logging_idempotent (c p : String) :
    (strIncludes c "--log-junit" = true → addJUnitLogging c p = c) ∧
      addJUnitLogging (addJUnitLogging c p) p = addJUnitLogging c p ∧
      (strIncludes c "--log-junit" = false → isDockerCommand c = true →
        addJUnitLogging c p = c ++ " --log-junit " ++ "/tmp/phpunit-junit.xml") ∧
      (strIncludes c "--log-junit" = false → isDockerCommand c = false →
        addJUnitLogging c p = c ++ " --log-junit " ++ p) := by
  refine ⟨?_, ?_, ?_, ?_⟩
  · intro h
    rw [addJUnitLogging, if_pos h]
  · by_cases h : strIncludes c "--log-junit" = true
    · have hc : addJUnitLogging c p = c := by rw [addJUnitLogging, if_pos h]
      rw [hc]
      exact hc
    · have h1 : addJUnitLogging c p =
          c ++ " --log-junit " ++ (if isDockerCommand c then containerJunitPath else p) := by
        rw [addJUnitLogging, if_neg h]
      rw [h1, addJUnitLogging, if_pos (appended_logjunit_contains c _)]
  · intro h hd
    rw [addJUnitLogging, if_neg (by rw [h]; exact Bool.false_ne_true)]
    show c ++ " --log-junit " ++ (if isDockerCommand c then containerJunitPath else p) = _
    rw [if_pos hd]
    rfl
  · intro h hd
    rw [addJUnitLogging, if_neg (by rw [h]; exact Bool.false_ne_true)]
    show c ++ " --log-junit " ++ (if isDockerCommand c then containerJunitPath else p) = _
    rw [if_neg (by rw [hd]; exact Bool.false_ne_true)]

theorem c10_junit_logging_idempotent_witness :
    (strIncludes "docker compose exec -T app phpunit" "--log-junit" = false ∧
        isDockerCommand "docker compose exec -T app phpunit" = true) ∧
      addJUnitLogging "docker compose exec -T app phpunit" "/ws/j.xml" =
        "docker compose exec -T app phpunit" ++ " --log-junit " ++ "/tmp/phpunit-junit.xml" := by
  have h := (c10_junit_logging_idempotent "docker compose exec -T app phpunit" "/ws/j.xml").2.2.1
    (by decide) (by decide)
  exact ⟨⟨by decide, by decide⟩, h⟩
